import Mathlib

/-!
Verification of the lophat matrix-reduction engine specification.

The repository's Python sources (`example.py`, `timing_test.py`, the test
files) are drivers calling into the engine; the engine itself (sparse F2
columns, serial and lock-free reduction, clearing, anti-transpose) is
modelled from the specification, faithfully to its words.

A sparse F2 column is a finite set of row indices; addition is symmetric
difference, the pivot is the greatest row index present.
-/

open scoped symmDiff

namespace LoPhat

/-- An F2 sparse column: the set of row indices holding a 1. -/
abbrev Col := Finset ℕ

/-- Modelled from the spec: `pivot()` returns the maximum row index present,
or `None` if the column is empty. -/
def pivot (c : Col) : Option ℕ :=
  if h : c.Nonempty then some (c.max' h) else none

/-- Pivot as a natural number measure: `none ↦ 0`, `some i ↦ i + 1`. -/
def pivotNat (c : Col) : ℕ := (pivot c).elim 0 (· + 1)

/-- Modelled from the spec: the inner loop of the serial reduction (§4.3):
while `R[j]` is non-empty and its pivot is already claimed by an earlier
column, add that column.  `prev` is the list of already-reduced columns
`R[0], …, R[j-1]`; the claimant of a pivot row is the (unique, by
reducedness) previous column whose pivot is that row.  The `fuel`
parameter makes the recursion structural; every iteration strictly
decreases the pivot, so `pivotNat c` fuel always suffices. -/
def reduceColFuel (prev : List Col) : ℕ → Col → Col
  | 0, c => c
  | fuel + 1, c =>
    match pivot c with
    | none => c
    | some i =>
      match prev.find? (fun d => pivot d == some i) with
      | none => c
      | some d => reduceColFuel prev fuel (c ∆ d)

/-- The fully reduced form of column `c` against the committed columns
`prev`. -/
def reduceCol (prev : List Col) (c : Col) : Col :=
  reduceColFuel prev (pivotNat c) c

/-- Modelled from the spec: serial reduction with V maintenance (§4.3.1,
§4.3.3): every addition `R[j] += R[k]` is mirrored by `V[j] += V[k]`. -/
def reduceColVFuel (prev : List (Col × Col)) : ℕ → Col × Col → Col × Col
  | 0, cv => cv
  | fuel + 1, cv =>
    match pivot cv.1 with
    | none => cv
    | some i =>
      match prev.find? (fun rv => pivot rv.1 == some i) with
      | none => cv
      | some rv => reduceColVFuel prev fuel (cv.1 ∆ rv.1, cv.2 ∆ rv.2)

/-- Reduce a column together with its V column. -/
def reduceColV (prev : List (Col × Col)) (c v : Col) : Col × Col :=
  reduceColVFuel prev (pivotNat c) (c, v)

/-- Modelled from the spec: the serial algorithm (§4.3.1), processing
columns left to right; `acc` holds the already-reduced columns. -/
def reduceMatrixAux (acc : List Col) : List Col → List Col
  | [] => acc
  | c :: rest => reduceMatrixAux (acc ++ [reduceCol acc c]) rest

/-- Serial reduction of a boundary matrix: `R` column by column. -/
def reduceMatrix (D : List Col) : List Col := reduceMatrixAux [] D

/-- Modelled from the spec: serial reduction maintaining `V` (initially the
unit column `{j}` for column `j`). -/
def reduceMatrixVAux (acc : List (Col × Col)) : List Col → List (Col × Col)
  | [] => acc
  | c :: rest => reduceMatrixVAux (acc ++ [reduceColV acc c {acc.length}]) rest

/-- Serial reduction producing the pair `(R, V)` columnwise. -/
def reduceMatrixV (D : List Col) : List (Col × Col) := reduceMatrixVAux [] D

/-! ## The emitted persistence diagram -/

/-- A persistence diagram: the paired (birth, death) indices and the
unpaired (essential) indices. -/
structure Diagram where
  paired : Finset (ℕ × ℕ)
  unpaired : Finset ℕ
deriving DecidableEq

/-- Modelled from the spec: `paired = { (pivot(R[j]), j) : R[j] ≠ ∅ }`. -/
def pairedOf (R : List Col) : Finset (ℕ × ℕ) :=
  (Finset.range R.length).biUnion fun j =>
    (pivot (R.getD j ∅)).elim ∅ fun i => {(i, j)}

/-- Modelled from the spec:
`unpaired = [0,n) \ (π₁(paired) ∪ π₂(paired))`. -/
def unpairedOf (R : List Col) : Finset ℕ :=
  Finset.range R.length \
    ((pairedOf R).image Prod.fst ∪ (pairedOf R).image Prod.snd)

/-- The diagram emitted from a reduced matrix. -/
def diagramOf (R : List Col) : Diagram := ⟨pairedOf R, unpairedOf R⟩

/-- The diagram of the serial reduction. -/
def serialDiagram (D : List Col) : Diagram := diagramOf (reduceMatrix D)

/-! ## Annotated input, validation and the anti-transpose -/

/-- An annotated input column: `(dimension, sorted row indices)`. -/
abbrev AnnCol := ℕ × List ℕ

/-- A list of naturals is strictly ascending. -/
def strictAsc : List ℕ → Bool
  | [] => true
  | [_] => true
  | a :: b :: rest => decide (a < b) && strictAsc (b :: rest)

/-- Modelled from the spec (§7): a column is valid when every row index is
in `[0, n)` and the entries are strictly ascending. -/
def validCol (n : ℕ) (col : List ℕ) : Bool :=
  strictAsc col && col.all fun x => decide (x < n)

/-- Modelled from the spec (§7): error kinds surfaced at ingestion. -/
inductive ReduceError
  | invalidColumn
  | inconsistentDimensions
  | invalidOption
deriving DecidableEq

/-- Modelled from the spec (§6): the recognised options record. -/
structure Options where
  maintainV : Bool := false
  numThreads : ℕ := 0
  minChunkLen : ℕ := 1
  clearing : Bool := true

/-- The column of the input matrix at index `j` (as a set). -/
def colAt (D : List Col) (j : ℕ) : Col := D.getD j ∅

/-- Modelled from the spec (§4.4): the anti-transpose `D^⊥` given by
`D^⊥[i][j] = D[n-1-j][n-1-i]`. -/
def antiTCol (n : ℕ) (D : List Col) (j : ℕ) : Col :=
  (Finset.range n).filter fun i => (n - 1 - j) ∈ colAt D (n - 1 - i)

/-- The anti-transposed matrix as a list of columns. -/
def antiT (D : List Col) : List Col :=
  (List.range D.length).map (antiTCol D.length D)

/-- Modelled from the spec (§4.4): re-mapping the diagram of `D^⊥` back to
the index space of `D` via `j ↦ n-1-j`. -/
def remapDiagram (n : ℕ) (d : Diagram) : Diagram :=
  ⟨d.paired.image fun p => (n - 1 - p.2, n - 1 - p.1),
   d.unpaired.image fun j => n - 1 - j⟩

/-! ## Clearing (§4.3.4): reduce in dimension strata, top dimension first;
when a column commits with pivot `i`, kill column `i`. -/

/-- Modelled from the spec (§4.3.4): processing order for clearing —
dimension strata from the highest dimension down, ascending index within a
stratum. -/
def strataOrder (dims : List ℕ) : List ℕ :=
  let maxD := dims.foldr max 0
  ((List.range (maxD + 1)).reverse).flatMap fun d =>
    (List.range dims.length).filter fun j => dims.getD j 0 == d

/-- State of the clearing reduction: columns processed so far (with their
original indices) and the set of killed column indices. -/
structure ClearState where
  done : List (ℕ × Col)
  killed : Finset ℕ

/-- Modelled from the spec (§4.3.4): process one column.  A killed column
is recorded as empty without reduction; otherwise the column is reduced
against the committed columns, and on committing with pivot `i`, column `i`
is killed. -/
def clearingStep (D : List Col) (s : ClearState) (j : ℕ) : ClearState :=
  if j ∈ s.killed then ⟨s.done ++ [(j, ∅)], s.killed⟩
  else
    let r := reduceCol (s.done.map Prod.snd) (colAt D j)
    match pivot r with
    | none => ⟨s.done ++ [(j, r)], s.killed⟩
    | some i => ⟨s.done ++ [(j, r)], insert i s.killed⟩

/-- Run the clearing reduction over a processing order. -/
def clearingRun (D : List Col) (order : List ℕ) : List (ℕ × Col) :=
  (order.foldl (clearingStep D) ⟨[], ∅⟩).done

/-- Reassemble the reduced columns into original index order. -/
def assembleR (n : ℕ) (done : List (ℕ × Col)) : List Col :=
  (List.range n).map fun j =>
    ((done.find? fun p => p.1 == j).map Prod.snd).getD ∅

/-- The diagram of the clearing reduction of an annotated matrix. -/
def clearingDiagram (dims : List ℕ) (D : List Col) : Diagram :=
  diagramOf (assembleR D.length (clearingRun D (strataOrder dims)))

/-! ## The `compute_pairings` pipeline -/

/-- The underlying columns of an annotated input. -/
def colsOf (input : List AnnCol) : List Col :=
  input.map fun c => c.2.toFinset

/-- The dimension annotations of an annotated input. -/
def dimsOf (input : List AnnCol) : List ℕ := input.map Prod.fst

/-- Modelled from the spec (§4.4): dimensions of the anti-transposed
matrix, `top_dim - dim(D[n-1-j])`. -/
def antiTDims (dims : List ℕ) : List ℕ :=
  let n := dims.length
  let top := dims.foldr max 0
  (List.range n).map fun j => top - dims.getD (n - 1 - j) 0

/-- The reduction phase on plain columns: clearing reduction when the
option is set, plain serial reduction otherwise. -/
def reducePhase (clearing : Bool) (dims : List ℕ) (D : List Col) : Diagram :=
  if clearing then clearingDiagram dims D else serialDiagram D

/-- Modelled from the spec (§6, §4.4): `compute_pairings` — validate the
input; on failure signal `InvalidColumn` and do not reduce.  Otherwise
optionally anti-transpose, reduce (with clearing when enabled), and re-map
the output. -/
def computePairingsE (antiTranspose : Bool) (opts : Options)
    (input : List AnnCol) : Except ReduceError Diagram :=
  let n := input.length
  if input.all (fun c => validCol n c.2) then
    let D := colsOf input
    let dims := dimsOf input
    if antiTranspose then
      .ok (remapDiagram n (reducePhase opts.clearing (antiTDims dims) (antiT D)))
    else
      .ok (reducePhase opts.clearing dims D)
  else
    .error .invalidColumn

/-- `compute_pairings` with default options (anti-transpose on, clearing
on), as invoked by the repository's tests. -/
def computePairings (input : List AnnCol) : Except ReduceError Diagram :=
  computePairingsE true {} input

/-- Whether the engine produced a diagram (no validation failure). -/
def isOkE : Except ReduceError Diagram → Bool
  | .ok _ => true
  | .error _ => false

/-- The paired set of a successful run (junk on error). -/
def okPaired : Except ReduceError Diagram → Finset (ℕ × ℕ)
  | .ok d => d.paired
  | .error _ => ∅

/-- The unpaired set of a successful run (junk on error). -/
def okUnpaired : Except ReduceError Diagram → Finset ℕ
  | .ok d => d.unpaired
  | .error _ => ∅

/-- Modelled from the spec: a forward iterator over columns, as a stream
that yields `none` when exhausted; `compute_pairings` accepts either a
random-access list or such a stream (§6).  Ingestion materialises the
stream by pulling until exhaustion (with a fuel bound). -/
def ingestStream (f : ℕ → Option AnnCol) : ℕ → ℕ → List AnnCol
  | 0, _ => []
  | fuel + 1, idx =>
    match f idx with
    | none => []
    | some c => c :: ingestStream f fuel (idx + 1)

/-- The forward stream of a list of columns. -/
def streamOf (L : List AnnCol) : ℕ → Option AnnCol := fun i => L.get? i

/-- The F2 vector of a column: its characteristic function with values in
`ZMod 2`.  Symmetric difference of columns is addition of vectors. -/
def phi (c : Col) : ℕ → ZMod 2 := fun i => if i ∈ c then 1 else 0

/-- The unit‑upper‑triangularity invariant of a V matrix given as a family
of columns: `V j` is supported on `[0, j]` and contains `j`. -/
def Unitriangular (n : ℕ) (V : ℕ → Col) : Prop :=
  ∀ j < n, V j ⊆ Finset.range (j + 1) ∧ j ∈ V j

/-- The `R = D·V` invariant, columnwise, at the level of F2 vectors. -/
def IsDV (n : ℕ) (D R V : ℕ → Col) : Prop :=
  ∀ j < n, phi (R j) = ∑ m in V j, phi (D m)

/-- Reducedness: non-empty columns have pairwise distinct pivots. -/
def Reduced (n : ℕ) (R : ℕ → Col) : Prop :=
  ∀ j k, j < n → k < n → R j ≠ ∅ → R k ≠ ∅ →
    pivot (R j) = pivot (R k) → j = k

/-- The columns of a list, as a total family (empty beyond the end). -/
def famOf (L : List Col) : ℕ → Col := fun j => L.getD j ∅

/-- The `R` family of a reduced `(R, V)` list. -/
def rFam (L : List (Col × Col)) : ℕ → Col := fun k => (L.getD k (∅, ∅)).1

/-- The `V` family of a reduced `(R, V)` list. -/
def vFam (L : List (Col × Col)) : ℕ → Col := fun k => (L.getD k (∅, ∅)).2

/-- Application of the boundary matrix to an F2 chain (a set of column
indices): the F2 vector `Σ_{k ∈ w} D_k`. -/
def Dapp (D : List Col) (w : Col) : ℕ → ZMod 2 :=
  ∑ k in w, phi (colAt D k)

/-- Dimension annotations consistent with the columns: every entry of a
column of dimension `d` is an index of dimension `d - 1` (and in range). -/
def DimsConsistent (dims : List ℕ) (D : List Col) : Prop :=
  ∀ j, j < D.length → ∀ x ∈ colAt D j,
    x < D.length ∧ dims.getD x 0 + 1 = dims.getD j 0

/-- The boundary-of-boundary property `D ∘ D = 0` of a genuine filtered
boundary matrix. -/
def BoundarySq (D : List Col) : Prop :=
  ∀ j, j < D.length → Dapp D (colAt D j) = 0

instance : Std.Commutative (α := Col) (· ∆ ·) := ⟨symmDiff_comm⟩

instance : Std.Associative (α := Col) (· ∆ ·) := ⟨symmDiff_assoc⟩

/-- Symmetric-difference sum of a family of columns over an index set:
the computable counterpart of `Dapp`. -/
def sdSum (w : Finset ℕ) (f : ℕ → Col) : Col := w.fold (· ∆ ·) ∅ f

/-- The clearing processing order: strictly higher stratum first, then
ascending index within a stratum. -/
def ordRel (dims : List ℕ) (a b : ℕ) : Prop :=
  dims.getD b 0 < dims.getD a 0 ∨
    (dims.getD a 0 = dims.getD b 0 ∧ a < b)

/-- The running invariant of the clearing reduction: every processed
column is indexed in range, dimension-homogeneous, expressible as
`D·W` for a unitriangular `W`, has a pivot distinct from every other
processed column, and every killed index admits a unitriangular null
chain. -/
def ClearInv (dims : List ℕ) (D : List Col) (processed : List ℕ)
    (s : ClearState) : Prop :=
  s.done.map Prod.fst = processed ∧
  (∀ p ∈ s.done, p.1 < D.length) ∧
  (∀ p ∈ s.done, ∀ x ∈ p.2,
    x < D.length ∧ dims.getD x 0 + 1 = dims.getD p.1 0) ∧
  (∀ p ∈ s.done, ∃ W : Col,
    W ⊆ Finset.range (p.1 + 1) ∧ p.1 ∈ W ∧ phi p.2 = Dapp D W) ∧
  (∀ p ∈ s.done, ∀ q ∈ s.done, p.2 ≠ ∅ → q.2 ≠ ∅ →
    pivot p.2 = pivot q.2 → p.1 = q.1) ∧
  (∀ i ∈ s.killed, ∃ W : Col,
    W ⊆ Finset.range (i + 1) ∧ i ∈ W ∧ Dapp D W = 0)

/-! ## `compute_pairings_with_reps`: the same pipeline maintaining V -/

/-- State of the clearing reduction with V maintenance; a killed column
resets both `R[i]` and `V[i]` to `∅` (§4.3.4). -/
structure ClearStateV where
  done : List (ℕ × (Col × Col))
  killed : Finset ℕ

/-- Modelled from the spec (§4.3.3–4.3.4): clearing step with V; every
addition on `R` is mirrored on `V`. -/
def clearingStepV (D : List Col) (s : ClearStateV) (j : ℕ) : ClearStateV :=
  if j ∈ s.killed then ⟨s.done ++ [(j, (∅, ∅))], s.killed⟩
  else
    let rv := reduceColV (s.done.map Prod.snd) (colAt D j) {j}
    match pivot rv.1 with
    | none => ⟨s.done ++ [(j, rv)], s.killed⟩
    | some i => ⟨s.done ++ [(j, rv)], insert i s.killed⟩

/-- Run the clearing-with-V reduction over a processing order. -/
def clearingRunV (D : List Col) (order : List ℕ) : List (ℕ × (Col × Col)) :=
  (order.foldl (clearingStepV D) ⟨[], ∅⟩).done

/-- Forgetting the V component of a clearing-with-V state. -/
def projCSV (s : ClearStateV) : ClearState :=
  ⟨s.done.map fun p => (p.1, p.2.1), s.killed⟩

/-- Reassemble the reduced `(R, V)` columns into original index order. -/
def assembleRV (n : ℕ) (done : List (ℕ × (Col × Col))) : List (Col × Col) :=
  (List.range n).map fun j =>
    ((done.find? fun p => p.1 == j).map Prod.snd).getD (∅, ∅)

/-- The paired indices as a list, in death order. -/
def pairedListOf (R : List Col) : List (ℕ × ℕ) :=
  (List.range R.length).filterMap fun j =>
    match pivot (R.getD j ∅) with
    | some i => some (i, j)
    | none => none

/-- The unpaired indices as a list. -/
def unpairedListOf (R : List Col) : List ℕ :=
  (List.range R.length).filter fun j => decide (j ∈ unpairedOf R)

/-- The output record of `compute_pairings_with_reps`: pairings as lists,
together with the representative columns of V (§6, §9). -/
structure DiagramWithReps where
  paired : List (ℕ × ℕ)
  unpaired : List ℕ
  pairedReps : List Col
  unpairedReps : List Col

/-- Modelled from the spec (§6): `compute_pairings_with_reps` — the
default `compute_pairings` pipeline with `maintain_v` set, surfacing the
V columns as representatives. -/
def computePairingsWithReps (input : List AnnCol) :
    Except ReduceError DiagramWithReps :=
  let n := input.length
  if input.all (fun c => validCol n c.2) then
    let D := colsOf input
    let dims := dimsOf input
    let RV := assembleRV n
      (clearingRunV (antiT D) (strataOrder (antiTDims dims)))
    let R := RV.map Prod.fst
    let V := RV.map Prod.snd
    let pairedAT := pairedListOf R
    let unpairedAT := unpairedListOf R
    .ok ⟨pairedAT.map fun p => (n - 1 - p.2, n - 1 - p.1),
         unpairedAT.map fun j => n - 1 - j,
         pairedAT.map fun p => colAt V p.2,
         unpairedAT.map fun j => colAt V j⟩
  else
    .error .invalidColumn

/-! ## The lock-free parallel reduction (§4.3.2), as a scheduled
transition system.  A schedule lists, in order, the column a worker acts
on; thread count and chunking only select which schedules can occur. -/

/-- Global state of the lock-free reduction: the shared columns `R`, the
maintained `V`, and the atomic pivot map `P` (row → claimant). -/
structure LFState where
  R : List Col
  V : List Col
  P : List (Option ℕ)

/-- Modelled from the spec (§4.3.2): initial state, `R = D`, `V` the unit
columns, every pivot row unclaimed. -/
def initLF (D : List Col) : LFState :=
  ⟨D, (List.range D.length).map fun j => {j}, List.replicate D.length none⟩

/-- Modelled from the spec (§4.3.2): one step of the worker owning column
`j`: look up the claimant `k` of `pivot(R[j])`; if `k < j` add column `k`
(mirrored on `V`); if `k > j` contend and steal the claim (the dirtied `k`
re-enters through later schedule entries); if unclaimed, claim it. -/
def lfStep (s : LFState) (j : ℕ) : LFState :=
  if j < s.R.length then
    match pivot (colAt s.R j) with
    | none => s
    | some i =>
      match s.P.getD i none with
      | none => ⟨s.R, s.V, s.P.set i (some j)⟩
      | some k =>
        if k = j then s
        else if k < j then
          ⟨s.R.set j (colAt s.R j ∆ colAt s.R k),
           s.V.set j (colAt s.V j ∆ colAt s.V k), s.P⟩
        else ⟨s.R, s.V, s.P.set i (some j)⟩
  else s

/-- Run the lock-free system under a given schedule. -/
def lfRun (D : List Col) (sched : List ℕ) : LFState :=
  sched.foldl lfStep (initLF D)

/-- A column is committed: empty, or its pivot row is claimed by itself. -/
def lfCommitted (s : LFState) (j : ℕ) : Bool :=
  match pivot (colAt s.R j) with
  | none => true
  | some i => s.P.getD i none == some j

/-- Quiescence: every column is committed — no worker has any step left
(§4.3.2's termination condition). -/
def lfQuiescent (s : LFState) : Bool :=
  (List.range s.R.length).all (lfCommitted s)

/-- The diagram emitted from a lock-free state. -/
def lfDiagram (s : LFState) : Diagram := diagramOf s.R

/-- The internal invariant of the lock-free system. -/
def LFInv (D : List Col) (s : LFState) : Prop :=
  s.R.length = D.length ∧ s.V.length = D.length ∧
  (∀ i k, s.P.getD i none = some k →
    k < D.length ∧ pivot (colAt s.R k) = some i) ∧
  Unitriangular D.length (colAt s.V) ∧
  IsDV D.length (colAt D) (colAt s.R) (colAt s.V)

/-! ## The repository's concrete matrices -/

/-- The annotated boundary matrix of the 2-simplex from
`tests/test_correct_pairings.py`. -/
def m2simplex : List AnnCol :=
  [(0, []), (0, []), (0, []), (1, [0, 1]), (1, [0, 2]), (1, [1, 2]),
   (2, [3, 4, 5])]

/-- The annotated boundary matrix of the filled tetrahedron from
`example.py`. -/
def mTetra : List AnnCol :=
  [(0, []), (0, []), (0, []), (0, []),
   (1, [0, 1]), (1, [0, 2]), (1, [1, 2]), (1, [0, 3]), (1, [1, 3]),
   (1, [2, 3]),
   (2, [4, 7, 8]), (2, [5, 7, 9]), (2, [6, 8, 9]), (2, [4, 5, 6])]

/-- The lower-left block of the matrix of `D` (rows `≥ i`, columns `< j`),
padded with zeroes to a square matrix over `ZMod 2`. -/
def blockM (D : List Col) (i j : ℕ) :
    Matrix (Fin D.length) (Fin D.length) (ZMod 2) := fun r c =>
  if i ≤ (r : ℕ) ∧ (c : ℕ) < j ∧ (r : ℕ) ∈ colAt D (c : ℕ) then 1 else 0

/-- A column as an `n`-dimensional F2 vector truncated to rows `≥ i`. -/
def psiCol (n i : ℕ) (c : Col) : Fin n → ZMod 2 := fun r =>
  if i ≤ (r : ℕ) ∧ (r : ℕ) ∈ c then 1 else 0

/-- The reduced columns below `j` whose pivot reaches past row `i`; the
cardinality of this set is the rank of `blockM D i j`. -/
def pivSet (D : List Col) (i j : ℕ) : Finset ℕ :=
  (Finset.range j).filter (fun k => i < pivotNat (colAt (reduceMatrix D) k))

/-- The truncated reduced columns indexed by `pivSet`: a basis of the
column space of the lower-left block. -/
def pivFam (D : List Col) (i j : ℕ) :
    {x // x ∈ pivSet D i j} → (Fin D.length → ZMod 2) :=
  fun k => psiCol D.length i (colAt (reduceMatrix D) (k : ℕ))

/-- The order-reversing self-equivalence `x ↦ n - 1 - x` of `Fin n`,
realising the anti-transpose reindexing. -/
def revFin (n : ℕ) : Fin n ≃ Fin n where
  toFun x := ⟨n - 1 - (x : ℕ), by omega⟩
  invFun x := ⟨n - 1 - (x : ℕ), by omega⟩
  left_inv x := by
    apply Fin.ext
    show n - 1 - (n - 1 - (x : ℕ)) = (x : ℕ)
    omega
  right_inv x := by
    apply Fin.ext
    show n - 1 - (n - 1 - (x : ℕ)) = (x : ℕ)
    omega

/-- A matrix with consistent dimensions but a half-open edge and a
single-face triangle, violating the boundary property `D ∘ D = 0`. -/
def mHalfOpen : List AnnCol := [(0, []), (0, []), (1, [0]), (2, [2])]

/-- A matrix with `D ∘ D = 0` but dimension annotations inconsistent with
the entries. -/
def mBadDims : List AnnCol := [(0, []), (1, [0]), (2, [0]), (1, [0])]


/-! # Theorems -/

theorem pivot_eq_none_iff {c : Col} : pivot c = none ↔ c = ∅ := by
  unfold pivot
  split
  · rename_i h
    simp [Finset.nonempty_iff_ne_empty] at h ⊢
    exact h
  · rename_i h
    simp [Finset.not_nonempty_iff_eq_empty] at h
    simp [h]

theorem pivot_eq_some_iff {c : Col} {i : ℕ} :
    pivot c = some i ↔ i ∈ c ∧ ∀ x ∈ c, x ≤ i := by
  unfold pivot
  split
  · rename_i h
    constructor
    · intro he
      have he' : c.max' h = i := by simpa using he
      exact ⟨he' ▸ c.max'_mem h, fun x hx => he' ▸ c.le_max' x hx⟩
    · intro ⟨hi, hall⟩
      have : c.max' h = i :=
        le_antisymm (Finset.max'_le _ _ _ hall) (c.le_max' i hi)
      simp [this]
  · rename_i h
    simp [Finset.not_nonempty_iff_eq_empty] at h
    subst h
    simp

theorem pivot_mem {c : Col} {i : ℕ} (h : pivot c = some i) : i ∈ c :=
  (pivot_eq_some_iff.mp h).1

theorem le_of_mem_pivot {c : Col} {i x : ℕ} (h : pivot c = some i) (hx : x ∈ c) :
    x ≤ i := (pivot_eq_some_iff.mp h).2 x hx

theorem pivotNat_of_some {c : Col} {i : ℕ} (h : pivot c = some i) :
    pivotNat c = i + 1 := by simp [pivotNat, h]

/-- Elements of the symmetric difference of two columns with the same pivot
`i` lie strictly below `i`. -/
theorem mem_symmDiff_lt {c d : Col} {i : ℕ} (hc : pivot c = some i)
    (hd : pivot d = some i) : ∀ x ∈ c ∆ d, x < i := by
  intro x hx
  rw [Finset.mem_symmDiff] at hx
  rcases hx with ⟨hxc, hxd⟩ | ⟨hxd, hxc⟩
  · rcases lt_or_eq_of_le (le_of_mem_pivot hc hxc) with h | h
    · exact h
    · exact absurd (h ▸ pivot_mem hd) hxd
  · rcases lt_or_eq_of_le (le_of_mem_pivot hd hxd) with h | h
    · exact h
    · exact absurd (h ▸ pivot_mem hc) hxc

theorem pivotNat_le_of_bound {c : Col} {i : ℕ} (h : ∀ x ∈ c, x < i) :
    pivotNat c ≤ i := by
  unfold pivotNat
  cases hp : pivot c with
  | none => simp
  | some m => simpa using h m (pivot_mem hp)

theorem pivotNat_symmDiff_lt {c d : Col} {i : ℕ} (hc : pivot c = some i)
    (hd : pivot d = some i) : pivotNat (c ∆ d) < pivotNat c := by
  have h1 : pivotNat (c ∆ d) ≤ i := pivotNat_le_of_bound (mem_symmDiff_lt hc hd)
  have h2 : pivotNat c = i + 1 := pivotNat_of_some hc
  omega

/-! ### Basic properties of the column-reduction loop -/

theorem reduceColFuel_none {prev : List Col} {fuel : ℕ} {c : Col}
    (hp : pivot c = none) : reduceColFuel prev fuel c = c := by
  cases fuel with
  | zero => rfl
  | succ fuel => simp only [reduceColFuel, hp]

theorem reduceColFuel_unclaimed {prev : List Col} {fuel : ℕ} {c : Col} {i : ℕ}
    (hp : pivot c = some i)
    (hf : prev.find? (fun d => pivot d == some i) = none) :
    reduceColFuel prev (fuel + 1) c = c := by
  simp only [reduceColFuel, hp, hf]

theorem reduceColFuel_claimed {prev : List Col} {fuel : ℕ} {c d : Col} {i : ℕ}
    (hp : pivot c = some i)
    (hf : prev.find? (fun d => pivot d == some i) = some d) :
    reduceColFuel prev (fuel + 1) c = reduceColFuel prev fuel (c ∆ d) := by
  simp only [reduceColFuel, hp, hf]

theorem reduceColVFuel_none {prev : List (Col × Col)} {fuel : ℕ} {cv : Col × Col}
    (hp : pivot cv.1 = none) : reduceColVFuel prev fuel cv = cv := by
  cases fuel with
  | zero => rfl
  | succ fuel => simp only [reduceColVFuel, hp]

theorem reduceColVFuel_unclaimed {prev : List (Col × Col)} {fuel : ℕ}
    {cv : Col × Col} {i : ℕ} (hp : pivot cv.1 = some i)
    (hf : prev.find? (fun rv => pivot rv.1 == some i) = none) :
    reduceColVFuel prev (fuel + 1) cv = cv := by
  simp only [reduceColVFuel, hp, hf]

theorem reduceColVFuel_claimed {prev : List (Col × Col)} {fuel : ℕ}
    {cv rv : Col × Col} {i : ℕ} (hp : pivot cv.1 = some i)
    (hf : prev.find? (fun rv => pivot rv.1 == some i) = some rv) :
    reduceColVFuel prev (fuel + 1) cv =
      reduceColVFuel prev fuel (cv.1 ∆ rv.1, cv.2 ∆ rv.2) := by
  simp only [reduceColVFuel, hp, hf]

/-- Any property preserved by adding a committed column is preserved by the
reduction loop. -/
theorem reduceColFuel_invariant {prev : List Col} (P : Col → Prop)
    (hstep : ∀ c d, d ∈ prev → pivot d = pivot c → P c → P (c ∆ d)) :
    ∀ fuel c, P c → P (reduceColFuel prev fuel c) := by
  intro fuel
  induction fuel with
  | zero => intro c h; exact h
  | succ fuel ih =>
    intro c h
    cases hp : pivot c with
    | none => rw [reduceColFuel_none hp]; exact h
    | some i =>
      cases hf : prev.find? (fun d => pivot d == some i) with
      | none => rw [reduceColFuel_unclaimed hp hf]; exact h
      | some d =>
        rw [reduceColFuel_claimed hp hf]
        have hd : pivot d = some i := by simpa using List.find?_some hf
        exact ih _ (hstep c d (List.mem_of_find?_eq_some hf) (hd.trans hp.symm) h)

/-- With sufficient fuel, the pivot of the reduced column is unclaimed:
no committed column has the same pivot. -/
theorem reduceColFuel_no_claimant {prev : List Col} :
    ∀ fuel c, pivotNat c ≤ fuel → ∀ i,
      pivot (reduceColFuel prev fuel c) = some i →
      ∀ d ∈ prev, pivot d ≠ some i := by
  intro fuel
  induction fuel with
  | zero =>
    intro c hle i hres
    have hnone : pivot c = none := by
      cases hp : pivot c with
      | none => rfl
      | some m => rw [pivotNat_of_some hp] at hle; omega
    rw [reduceColFuel_none hnone, hnone] at hres
    exact absurd hres (by simp)
  | succ fuel ih =>
    intro c hle i hres
    cases hp : pivot c with
    | none =>
      rw [reduceColFuel_none hp, hp] at hres
      exact absurd hres (by simp)
    | some i₀ =>
      cases hf : prev.find? (fun d => pivot d == some i₀) with
      | none =>
        rw [reduceColFuel_unclaimed hp hf, hp] at hres
        obtain rfl : i₀ = i := by simpa using hres
        intro d hd
        have := List.find?_eq_none.mp hf d hd
        simpa using this
      | some d =>
        rw [reduceColFuel_claimed hp hf] at hres
        have hd : pivot d = some i₀ := by simpa using List.find?_some hf
        have hlt : pivotNat (c ∆ d) < pivotNat c := pivotNat_symmDiff_lt hp hd
        exact ih (c ∆ d) (by omega) i hres

/-- The projection of the V-maintaining loop onto its first component is
the plain loop. -/
theorem reduceColVFuel_fst {prev : List (Col × Col)} :
    ∀ fuel cv, (reduceColVFuel prev fuel cv).1 =
      reduceColFuel (prev.map Prod.fst) fuel cv.1 := by
  intro fuel
  induction fuel with
  | zero => intro cv; rfl
  | succ fuel ih =>
    intro cv
    cases hp : pivot cv.1 with
    | none => rw [reduceColVFuel_none hp, reduceColFuel_none hp]
    | some i =>
      have hfind : (prev.map Prod.fst).find? (fun d => pivot d == some i) =
          (prev.find? (fun rv => pivot rv.1 == some i)).map Prod.fst := by
        rw [List.find?_map]; rfl
      cases hf : prev.find? (fun rv => pivot rv.1 == some i) with
      | none =>
        rw [reduceColVFuel_unclaimed hp hf,
          reduceColFuel_unclaimed hp (by rw [hfind, hf]; rfl)]
      | some rv =>
        rw [reduceColVFuel_claimed hp hf,
          reduceColFuel_claimed hp (d := rv.1) (by rw [hfind, hf]; rfl), ih]

theorem reduceColV_fst {prev : List (Col × Col)} {c v : Col} :
    (reduceColV prev c v).1 = reduceCol (prev.map Prod.fst) c :=
  reduceColVFuel_fst _ _

/-- Any property preserved by pairwise addition of a committed `(R, V)`
pair is preserved by the V-maintaining loop. -/
theorem reduceColVFuel_invariant {prev : List (Col × Col)} (P : Col × Col → Prop)
    (hstep : ∀ cv rv, rv ∈ prev → pivot rv.1 = pivot cv.1 →
      P cv → P (cv.1 ∆ rv.1, cv.2 ∆ rv.2)) :
    ∀ fuel cv, P cv → P (reduceColVFuel prev fuel cv) := by
  intro fuel
  induction fuel with
  | zero => intro cv h; exact h
  | succ fuel ih =>
    intro cv h
    cases hp : pivot cv.1 with
    | none => rw [reduceColVFuel_none hp]; exact h
    | some i =>
      cases hf : prev.find? (fun rv => pivot rv.1 == some i) with
      | none => rw [reduceColVFuel_unclaimed hp hf]; exact h
      | some rv =>
        rw [reduceColVFuel_claimed hp hf]
        have hd : pivot rv.1 = some i := by simpa using List.find?_some hf
        exact ih _ (hstep cv rv (List.mem_of_find?_eq_some hf) (hd.trans hp.symm) h)

theorem mem_pairedOf {R : List Col} {i j : ℕ} :
    (i, j) ∈ pairedOf R ↔ j < R.length ∧ pivot (R.getD j ∅) = some i := by
  unfold pairedOf
  rw [Finset.mem_biUnion]
  constructor
  · rintro ⟨j', hj', hmem⟩
    cases hp : pivot (R.getD j' ∅) with
    | none => rw [hp] at hmem; simp at hmem
    | some m =>
      rw [hp] at hmem
      simp only [Option.elim, Finset.mem_singleton, Prod.mk.injEq] at hmem
      obtain ⟨rfl, rfl⟩ := hmem
      exact ⟨Finset.mem_range.mp hj', hp⟩
  · intro ⟨hj, hp⟩
    refine ⟨j, Finset.mem_range.mpr hj, ?_⟩
    rw [hp]
    simp

theorem mem_unpairedOf {R : List Col} {j : ℕ} :
    j ∈ unpairedOf R ↔
      j < R.length ∧ R.getD j ∅ = ∅ ∧
        ∀ k < R.length, pivot (R.getD k ∅) ≠ some j := by
  unfold unpairedOf
  rw [Finset.mem_sdiff, Finset.mem_union, Finset.mem_range]
  constructor
  · rintro ⟨hj, hno⟩
    push_neg at hno
    obtain ⟨hfst, hsnd⟩ := hno
    refine ⟨hj, ?_, ?_⟩
    · by_contra hne
      have hne' : (R.getD j ∅).Nonempty := Finset.nonempty_iff_ne_empty.mpr hne
      obtain ⟨i, hi⟩ : ∃ i, pivot (R.getD j ∅) = some i := by
        cases hp : pivot (R.getD j ∅) with
        | none => exact absurd (pivot_eq_none_iff.mp hp) hne
        | some i => exact ⟨i, rfl⟩
      exact hsnd (Finset.mem_image.mpr ⟨(i, j), mem_pairedOf.mpr ⟨hj, hi⟩, rfl⟩)
    · intro k hk hpk
      exact hfst (Finset.mem_image.mpr ⟨(j, k), mem_pairedOf.mpr ⟨hk, hpk⟩, rfl⟩)
  · rintro ⟨hj, hempty, hnopiv⟩
    refine ⟨hj, ?_⟩
    rintro (hfst | hsnd)
    · obtain ⟨⟨i', j'⟩, hmem, hj'⟩ := Finset.mem_image.mp hfst
      obtain ⟨hlt, hpiv⟩ := mem_pairedOf.mp hmem
      exact hnopiv j' hlt (hj' ▸ hpiv)
    · obtain ⟨⟨i', j'⟩, hmem, hj'⟩ := Finset.mem_image.mp hsnd
      obtain ⟨hlt, hpiv⟩ := mem_pairedOf.mp hmem
      subst hj'
      rw [hempty] at hpiv
      exact absurd hpiv (by rw [pivot_eq_none_iff.mpr rfl]; simp)

/-! ## Claim theorems: concrete scenarios, validation, iterator form,
pairing law -/

/-- C1: on the annotated boundary matrix of the 2-simplex,
`compute_pairings` (default options) returns
`paired = {(1,3),(2,4),(5,6)}` and `unpaired = {0}`. -/
theorem claim_C1 : isOkE (computePairings m2simplex) = true ∧
    okPaired (computePairings m2simplex) = {(1, 3), (2, 4), (5, 6)} ∧
    okUnpaired (computePairings m2simplex) = {0} := by decide

/-- C2: on the annotated boundary matrix of the filled tetrahedron,
`compute_pairings` returns `unpaired = {0, 13}`, and a paired set whose
birth indices are `{1,2,3,6,8,9}` and whose death indices are
`{4,5,7,10,11,12}` (the pair partners within a persistence class are the
ones selected by the smallest-claimant rule). -/
theorem claim_C2 : isOkE (computePairings mTetra) = true ∧
    okUnpaired (computePairings mTetra) = {0, 13} ∧
    (okPaired (computePairings mTetra)).image Prod.fst = {1, 2, 3, 6, 8, 9} ∧
    (okPaired (computePairings mTetra)).image Prod.snd =
      {4, 5, 7, 10, 11, 12} := by decide

/-- C8: an input containing a malformed column (a row index out of range
or entries not strictly ascending) is rejected at ingestion with
`InvalidColumn`; no reduction runs and no diagram is produced, for any
options and either anti-transpose setting. -/
theorem claim_C8 (b : Bool) (opts : Options) (input : List AnnCol)
    (h : ∃ c ∈ input, validCol input.length c.2 = false) :
    computePairingsE b opts input = .error .invalidColumn := by
  unfold computePairingsE
  have hall : input.all (fun c => validCol input.length c.2) = false := by
    obtain ⟨c, hc, hv⟩ := h
    rw [List.all_eq_false]
    exact ⟨c, hc, by simp [hv]⟩
  simp [hall]

theorem claim_C8_witness :
    (∃ c ∈ [((0 : ℕ), [1, 1])], validCol 1 c.2 = false) ∧
      computePairingsE true {} [((0 : ℕ), [1, 1])] = .error .invalidColumn :=
  ⟨by decide, claim_C8 true {} [((0 : ℕ), [1, 1])] (by decide)⟩

/-- C10: delivering the columns through a forward stream (iterator) over
the same column sequence produces the same diagram as the random-access
list, for any options and either anti-transpose setting. -/
theorem claim_C10 (b : Bool) (opts : Options) (input : List AnnCol)
    (fuel : ℕ) (h : input.length ≤ fuel) :
    computePairingsE b opts (ingestStream (streamOf input) fuel 0) =
      computePairingsE b opts input := by
  have hingest : ∀ fuel k, input.length ≤ k + fuel →
      ingestStream (streamOf input) fuel k = input.drop k := by
    intro fuel
    induction fuel with
    | zero =>
      intro k hk
      rw [Nat.add_zero] at hk
      simp [ingestStream, List.drop_eq_nil_of_le hk]
    | succ fuel ih =>
      intro k hk
      by_cases hklt : k < input.length
      · have hstep : ingestStream (streamOf input) (fuel + 1) k =
            input.get ⟨k, hklt⟩ :: ingestStream (streamOf input) fuel (k + 1) := by
          simp only [ingestStream, show streamOf input k =
            some (input.get ⟨k, hklt⟩) from List.get?_eq_get hklt]
        rw [hstep, ih (k + 1) (by omega), List.drop_eq_getElem_cons hklt]
        rfl
      · have hge : input.length ≤ k := by omega
        have hstep : ingestStream (streamOf input) (fuel + 1) k = [] := by
          simp only [ingestStream, show streamOf input k = none from
            List.get?_eq_none.mpr hge]
        rw [hstep, List.drop_eq_nil_of_le hge]
  rw [hingest fuel 0 (by omega), List.drop_zero]

theorem claim_C10_witness :
    m2simplex.length ≤ 7 ∧
      computePairingsE true {} (ingestStream (streamOf m2simplex) 7 0) =
        computePairingsE true {} m2simplex :=
  ⟨by decide, claim_C10 true {} m2simplex 7 (by decide)⟩

/-! ## The F2 algebra of columns -/

theorem zmod2_add_self (x : ℕ → ZMod 2) : x + x = 0 := by
  funext i
  have h : ∀ a : ZMod 2, a + a = 0 := by decide
  exact h (x i)

theorem phi_empty : phi (∅ : Col) = 0 := by
  funext i
  simp [phi]

theorem phi_symmDiff (u v : Col) : phi (u ∆ v) = phi u + phi v := by
  funext i
  by_cases hu : i ∈ u <;> by_cases hv : i ∈ v <;>
    simp [phi, Finset.mem_symmDiff, hu, hv] <;> decide

theorem phi_inj {u v : Col} (h : phi u = phi v) : u = v := by
  ext i
  have hi := congrFun h i
  by_cases hu : i ∈ u <;> by_cases hv : i ∈ v
  · simp [hu, hv]
  · have h10 : (1 : ZMod 2) = 0 := by simpa [phi, hu, hv] using hi
    exact absurd h10 (by decide)
  · have h01 : (0 : ZMod 2) = 1 := by simpa [phi, hu, hv] using hi
    exact absurd h01 (by decide)
  · simp [hu, hv]

theorem phi_eq_one_iff {u : Col} {i : ℕ} : phi u i = 1 ↔ i ∈ u := by
  by_cases h : i ∈ u <;> simp [phi, h] <;> decide

theorem phi_eq_zero_iff {u : Col} {i : ℕ} : phi u i = 0 ↔ i ∉ u := by
  by_cases h : i ∈ u <;> simp [phi, h] <;> decide

/-- Sums over a symmetric difference, in the char-2 module of F2 vectors:
the doubled intersection cancels. -/
theorem sum_symmDiff (u v : Finset ℕ) (f : ℕ → ℕ → ZMod 2) :
    ∑ m in u ∆ v, f m = (∑ m in u, f m) + ∑ m in v, f m := by
  have hsplit : (∑ m in u ∆ v, f m) + ∑ m in u ∩ v, f m =
      ∑ m in u ∪ v, f m := by
    have hd : Disjoint (u ∆ v) (u ∩ v) := disjoint_symmDiff_inf u v
    rw [← Finset.sum_union hd]
    congr 1
    simpa using symmDiff_sup_inf u v
  have hui : (∑ m in u ∪ v, f m) + ∑ m in u ∩ v, f m =
      (∑ m in u, f m) + ∑ m in v, f m := Finset.sum_union_inter
  have hdouble := zmod2_add_self (∑ m in u ∩ v, f m)
  calc ∑ m in u ∆ v, f m
      = (∑ m in u ∆ v, f m) + ((∑ m in u ∩ v, f m) + ∑ m in u ∩ v, f m) := by
        rw [hdouble, add_zero]
    _ = ((∑ m in u ∆ v, f m) + ∑ m in u ∩ v, f m) + ∑ m in u ∩ v, f m := by
        rw [add_assoc]
    _ = (∑ m in u ∪ v, f m) + ∑ m in u ∩ v, f m := by rw [hsplit]
    _ = (∑ m in u, f m) + ∑ m in v, f m := hui

/-- A column containing its bound `j` and supported on `[0, j]` has pivot
`j`. -/
theorem pivot_of_top {w : Col} {j : ℕ} (hmem : j ∈ w)
    (hsub : w ⊆ Finset.range (j + 1)) : pivot w = some j :=
  pivot_eq_some_iff.mpr ⟨hmem, fun x hx => by
    have := hsub hx
    rw [Finset.mem_range] at this
    omega⟩

/-- Representation over a unitriangular family: every column supported on
`[0, n)` is a sum of the `V' m`, with indices bounded by its pivot and the
pivot index itself participating; the representation is additive-functorial,
so it transports along any additive map of columns. -/
theorem span_repr {n : ℕ} {V' : ℕ → Col} (htri : Unitriangular n V') :
    ∀ fuel w, pivotNat w ≤ fuel → (∀ x ∈ w, x < n) →
      ∃ S : Finset ℕ,
        (∀ m ∈ S, m + 1 ≤ pivotNat w ∧ m < n) ∧
        (∀ t, pivot w = some t → t ∈ S) ∧
        ∀ G : Col → ℕ → ZMod 2, (∀ u v, G (u ∆ v) = G u + G v) →
          G w = ∑ m in S, G (V' m) := by
  intro fuel
  induction fuel with
  | zero =>
    intro w hle hbound
    have hnone : pivot w = none := by
      cases hp : pivot w with
      | none => rfl
      | some m => rw [pivotNat_of_some hp] at hle; omega
    have hw : w = ∅ := pivot_eq_none_iff.mp hnone
    subst hw
    refine ⟨∅, by simp, by simp [hnone], ?_⟩
    intro G hG
    have hzero : G ∅ = 0 := by
      have h0 := hG ∅ ∅
      have : (∅ : Col) ∆ ∅ = ∅ := by simp
      rw [this] at h0
      have := congrArg (fun x => x - G ∅) h0
      simpa using this.symm
    simp [hzero]
  | succ fuel ih =>
    intro w hle hbound
    cases hp : pivot w with
    | none =>
      have hw : w = ∅ := pivot_eq_none_iff.mp hp
      subst hw
      refine ⟨∅, by simp, by simp [hp], ?_⟩
      intro G hG
      have hzero : G ∅ = 0 := by
        have h0 := hG ∅ ∅
        have hempty : (∅ : Col) ∆ ∅ = ∅ := by simp
        rw [hempty] at h0
        have := congrArg (fun x => x - G ∅) h0
        simpa using this.symm
      simp [hzero]
    | some t =>
      have ht : t < n := hbound t (pivot_mem hp)
      obtain ⟨htsub, htmem⟩ := htri t ht
      have hpt : pivot (V' t) = some t := pivot_of_top htmem htsub
      set w' := w ∆ V' t with hw'
      have hlt : pivotNat w' < pivotNat w := pivotNat_symmDiff_lt hp hpt
      have hle' : pivotNat w' ≤ fuel := by
        rw [pivotNat_of_some hp] at hle hlt
        omega
      have hbound' : ∀ x ∈ w', x < n := by
        intro x hx
        rw [Finset.mem_symmDiff] at hx
        rcases hx with ⟨hxw, _⟩ | ⟨hxv, _⟩
        · exact hbound x hxw
        · have := htsub hxv
          rw [Finset.mem_range] at this
          omega
      obtain ⟨S', hS'bound, _, hS'sum⟩ := ih w' hle' hbound'
      have htnot : t ∉ S' := by
        intro hmem
        have := (hS'bound t hmem).1
        rw [pivotNat_of_some hp] at hlt
        omega
      refine ⟨insert t S', ?_, ?_, ?_⟩
      · intro m hm
        rcases Finset.mem_insert.mp hm with rfl | hm'
        · rw [pivotNat_of_some hp]
          omega
        · have := hS'bound m hm'
          rw [pivotNat_of_some hp] at hlt ⊢
          omega
      · intro t' ht'
        obtain rfl : t = t' := by simpa using ht'
        exact Finset.mem_insert_self t S'
      · intro G hG
        rw [Finset.sum_insert htnot, ← hS'sum G hG]
        have hGw' : G w' = G w + G (V' t) := by rw [hw', hG]
        rw [hGw']
        have hcancel := zmod2_add_self (G (V' t))
        calc G w = G w + (G (V' t) + G (V' t)) := by rw [hcancel, add_zero]
          _ = (G w + G (V' t)) + G (V' t) := by rw [add_assoc]
          _ = G (V' t) + (G w + G (V' t)) := by
              rw [← add_assoc, add_comm (G w) (G (V' t)), add_assoc]

/-- A sum of columns with pairwise-distinct pivots: it vanishes only when
every summand does, and otherwise its pivot is the pivot of (the unique)
maximal summand. -/
theorem sum_pivot_max {S : Finset ℕ} {C : ℕ → Col} {w : Col}
    (hdist : ∀ m ∈ S, ∀ m' ∈ S, C m ≠ ∅ → C m' ≠ ∅ →
      pivot (C m) = pivot (C m') → m = m')
    (hw : phi w = ∑ m in S, phi (C m)) :
    (w = ∅ → ∀ m ∈ S, C m = ∅) ∧
      (w ≠ ∅ → ∃ m ∈ S, C m ≠ ∅ ∧ pivot w = pivot (C m)) := by
  by_cases hall : ∀ m ∈ S, C m = ∅
  · have hzero : phi w = 0 := by
      rw [hw]
      apply Finset.sum_eq_zero
      intro m hm
      rw [hall m hm]
      exact phi_empty
    have : w = ∅ := phi_inj (by rw [hzero, phi_empty])
    exact ⟨fun _ => hall, fun hne => absurd this hne⟩
  · push_neg at hall
    obtain ⟨m₀, hm₀S, hm₀⟩ := hall
    set T := S.filter (fun m => C m ≠ ∅) with hT
    have hTne : T.Nonempty := ⟨m₀, Finset.mem_filter.mpr ⟨hm₀S, hm₀⟩⟩
    obtain ⟨ms, hmsT, hmax⟩ := T.exists_max_image (fun m => pivotNat (C m)) hTne
    obtain ⟨hmsS, hmsne⟩ := Finset.mem_filter.mp hmsT
    obtain ⟨q, hq⟩ : ∃ q, pivot (C ms) = some q := by
      cases hpq : pivot (C ms) with
      | none => exact absurd (pivot_eq_none_iff.mp hpq) hmsne
      | some q => exact ⟨q, rfl⟩
    have hterm : ∀ m ∈ S, m ≠ ms → phi (C m) q = 0 := by
      intro m hm hne
      rw [phi_eq_zero_iff]
      intro hqm
      have hmne : C m ≠ ∅ := fun h => by simp [h] at hqm
      have hmT : m ∈ T := Finset.mem_filter.mpr ⟨hm, hmne⟩
      obtain ⟨p, hp⟩ : ∃ p, pivot (C m) = some p := by
        cases hpp : pivot (C m) with
        | none => exact absurd (pivot_eq_none_iff.mp hpp) hmne
        | some p => exact ⟨p, rfl⟩
      have hqlep : q ≤ p := le_of_mem_pivot hp hqm
      have hple : pivotNat (C m) ≤ pivotNat (C ms) := hmax m hmT
      rw [pivotNat_of_some hp, pivotNat_of_some hq] at hple
      have : p = q := by omega
      subst this
      exact hne (hdist m hm ms hmsS hmne hmsne (hp.trans hq.symm))
    have hsumq : phi w q = 1 := by
      rw [hw, Finset.sum_apply]
      rw [Finset.sum_eq_single ms]
      · rw [phi_eq_one_iff]
        exact pivot_mem hq
      · intro m hm hne
        exact hterm m hm hne
      · intro habs
        exact absurd hmsS habs
    have hqw : q ∈ w := phi_eq_one_iff.mp hsumq
    have hwle : ∀ x ∈ w, x ≤ q := by
      intro x hx
      have hx1 : phi w x = 1 := phi_eq_one_iff.mpr hx
      rw [hw, Finset.sum_apply] at hx1
      by_contra hgt
      push_neg at hgt
      have : ∀ m ∈ S, phi (C m) x = 0 := by
        intro m hm
        rw [phi_eq_zero_iff]
        intro hxm
        have hmne : C m ≠ ∅ := fun h => by simp [h] at hxm
        obtain ⟨p, hp⟩ : ∃ p, pivot (C m) = some p := by
          cases hpp : pivot (C m) with
          | none => exact absurd (pivot_eq_none_iff.mp hpp) hmne
          | some p => exact ⟨p, rfl⟩
        have hxle : x ≤ p := le_of_mem_pivot hp hxm
        have hmT : m ∈ T := Finset.mem_filter.mpr ⟨hm, hmne⟩
        have hple : pivotNat (C m) ≤ pivotNat (C ms) := hmax m hmT
        rw [pivotNat_of_some hp, pivotNat_of_some hq] at hple
        omega
      rw [Finset.sum_eq_zero this] at hx1
      exact absurd hx1 (by decide)
    have hpw : pivot w = some q := pivot_eq_some_iff.mpr ⟨hqw, hwle⟩
    constructor
    · intro hwe
      exact absurd (hwe ▸ hqw) (by simp)
    · intro _
      exact ⟨ms, hmsS, hmsne, hpw.trans hq.symm⟩

/-- Uniqueness of the reduced pivots: any two reduced unitriangular
decompositions `R = D·V` and `R' = D·V'` of the same matrix have the same
pivot in every column.  This is what makes the emitted pairing independent
of the reduction strategy. -/
theorem pivots_unique {n : ℕ} {D R V R' V' : ℕ → Col}
    (htri : Unitriangular n V) (hdv : IsDV n D R V) (hred : Reduced n R)
    (htri' : Unitriangular n V') (hdv' : IsDV n D R' V')
    (hred' : Reduced n R') :
    ∀ j, j < n → pivot (R j) = pivot (R' j) := by
  intro j
  induction j using Nat.strong_induction_on with
  | _ j ih =>
    intro hj
    obtain ⟨hVsub, hVmem⟩ := htri j hj
    have hpV : pivot (V j) = some j := pivot_of_top hVmem hVsub
    have hVbound : ∀ x ∈ V j, x < n := by
      intro x hx
      have := hVsub hx
      rw [Finset.mem_range] at this
      omega
    obtain ⟨S, hSbound, hStop, hSsum⟩ :=
      span_repr htri' (pivotNat (V j)) (V j) le_rfl hVbound
    have hjS : j ∈ S := hStop j hpV
    have hSle : ∀ m ∈ S, m ≤ j ∧ m < n := by
      intro m hm
      have := hSbound m hm
      rw [pivotNat_of_some hpV] at this
      omega
    -- transport the representation along D·(−)
    have hDadd : ∀ u v : Col, (∑ k in u ∆ v, phi (D k)) =
        (∑ k in u, phi (D k)) + ∑ k in v, phi (D k) :=
      fun u v => sum_symmDiff u v fun k => phi (D k)
    have hRsum : phi (R j) = ∑ m in S, phi (R' m) := by
      rw [hdv j hj, hSsum (fun u => ∑ k in u, phi (D k)) hDadd]
      apply Finset.sum_congr rfl
      intro m hm
      exact (hdv' m (hSle m hm).2).symm
    have hdist : ∀ m ∈ S, ∀ m' ∈ S, R' m ≠ ∅ → R' m' ≠ ∅ →
        pivot (R' m) = pivot (R' m') → m = m' := by
      intro m hm m' hm' hne hne' hpp
      exact hred' m m' (hSle m hm).2 (hSle m' hm').2 hne hne' hpp
    obtain ⟨hzero, hnonzero⟩ := sum_pivot_max hdist hRsum
    by_cases hRj : R j = ∅
    · have hR'j : R' j = ∅ := hzero hRj j hjS
      rw [pivot_eq_none_iff.mpr hRj, pivot_eq_none_iff.mpr hR'j]
    · obtain ⟨ms, hmsS, hmsne, hpiv⟩ := hnonzero hRj
      by_cases hmj : ms = j
      · rw [hpiv, hmj]
      · have hmslt : ms < j := by
          have := (hSle ms hmsS).1
          omega
        have hih := ih ms hmslt (hSle ms hmsS).2
        have hRms : R ms ≠ ∅ := fun habs =>
          hmsne (pivot_eq_none_iff.mp
            (hih.symm.trans (pivot_eq_none_iff.mpr habs)))
        have : j = ms := hred j ms hj (hSle ms hmsS).2 hRj hRms
          (hpiv.trans hih.symm)
        omega

/-! ## The serial reduction is a reduced unitriangular decomposition -/

theorem reduceMatrixAux_length :
    ∀ (rest acc : List Col),
      (reduceMatrixAux acc rest).length = acc.length + rest.length := by
  intro rest
  induction rest with
  | nil => intro acc; simp [reduceMatrixAux]
  | cons c rest ih =>
    intro acc
    rw [reduceMatrixAux, ih]
    simp
    omega

theorem reduceMatrixVAux_length :
    ∀ (rest : List Col) (acc : List (Col × Col)),
      (reduceMatrixVAux acc rest).length = acc.length + rest.length := by
  intro rest
  induction rest with
  | nil => intro acc; simp [reduceMatrixVAux]
  | cons c rest ih =>
    intro acc
    rw [reduceMatrixVAux, ih]
    simp
    omega

theorem reduceMatrixVAux_fst :
    ∀ (rest : List Col) (acc : List (Col × Col)),
      (reduceMatrixVAux acc rest).map Prod.fst =
        reduceMatrixAux (acc.map Prod.fst) rest := by
  intro rest
  induction rest with
  | nil => intro acc; rfl
  | cons c rest ih =>
    intro acc
    rw [reduceMatrixVAux, reduceMatrixAux, ih]
    congr 1
    rw [List.map_append]
    congr 1
    simp only [List.map_cons, List.map_nil]
    congr 1
    exact reduceColV_fst

theorem reduceMatrix_length (D : List Col) :
    (reduceMatrix D).length = D.length := by
  unfold reduceMatrix
  rw [reduceMatrixAux_length]
  simp

theorem reduceMatrixV_fst (D : List Col) :
    (reduceMatrixV D).map Prod.fst = reduceMatrix D :=
  reduceMatrixVAux_fst D []

theorem rFam_append_lt {acc : List (Col × Col)} {x : Col × Col} {k : ℕ}
    (h : k < acc.length) : rFam (acc ++ [x]) k = rFam acc k := by
  unfold rFam
  rw [List.getD_append _ _ _ _ h]

theorem rFam_append_self {acc : List (Col × Col)} {x : Col × Col} :
    rFam (acc ++ [x]) acc.length = x.1 := by
  unfold rFam
  rw [List.getD_append_right _ _ _ _ le_rfl]
  simp

theorem vFam_append_lt {acc : List (Col × Col)} {x : Col × Col} {k : ℕ}
    (h : k < acc.length) : vFam (acc ++ [x]) k = vFam acc k := by
  unfold vFam
  rw [List.getD_append _ _ _ _ h]

theorem vFam_append_self {acc : List (Col × Col)} {x : Col × Col} :
    vFam (acc ++ [x]) acc.length = x.2 := by
  unfold vFam
  rw [List.getD_append_right _ _ _ _ le_rfl]
  simp

/-- Membership in the accumulated list, indexed. -/
theorem mem_acc_indexed {acc : List (Col × Col)} {rv : Col × Col}
    (h : rv ∈ acc) : ∃ k, ∃ hk : k < acc.length,
      rFam acc k = rv.1 ∧ vFam acc k = rv.2 := by
  obtain ⟨⟨k, hk⟩, hget⟩ := List.mem_iff_get.mp h
  refine ⟨k, hk, ?_, ?_⟩
  · unfold rFam
    rw [List.getD_eq_getElem _ _ hk, ← hget]
    rfl
  · unfold vFam
    rw [List.getD_eq_getElem _ _ hk, ← hget]
    rfl

/-- The reduction of the next column preserves unitriangularity and the
`R = D·V` invariant. -/
theorem reduceColV_step_prop (D : List Col) (acc : List (Col × Col))
    (htri : Unitriangular acc.length (vFam acc))
    (hdv : IsDV acc.length (colAt D) (rFam acc) (vFam acc)) :
    ((reduceColV acc (colAt D acc.length) {acc.length}).2 ⊆
        Finset.range (acc.length + 1) ∧
      acc.length ∈ (reduceColV acc (colAt D acc.length) {acc.length}).2) ∧
    phi (reduceColV acc (colAt D acc.length) {acc.length}).1 =
      ∑ m in (reduceColV acc (colAt D acc.length) {acc.length}).2,
        phi (colAt D m) := by
  set j := acc.length with hj
  have := @reduceColVFuel_invariant acc
    (fun cv => (cv.2 ⊆ Finset.range (j + 1) ∧ j ∈ cv.2) ∧
      phi cv.1 = ∑ m in cv.2, phi (colAt D m))
    ?_ (pivotNat (colAt D j)) (colAt D j, {j}) ?_
  · exact this
  · rintro cv rv hrv _ ⟨⟨hsub, hjmem⟩, hphi⟩
    obtain ⟨k, hk, hr, hv⟩ := mem_acc_indexed hrv
    obtain ⟨hksub, _⟩ := htri k hk
    have hkdv := hdv k hk
    rw [hr, hv] at *
    constructor
    · constructor
      · intro x hx
        rw [Finset.mem_symmDiff] at hx
        rcases hx with ⟨hx1, _⟩ | ⟨hx2, _⟩
        · exact hsub hx1
        · have := hksub hx2
          rw [Finset.mem_range] at this ⊢
          omega
      · rw [Finset.mem_symmDiff]
        left
        refine ⟨hjmem, fun hcon => ?_⟩
        have := hksub hcon
        rw [Finset.mem_range] at this
        omega
    · rw [phi_symmDiff, hphi, hkdv, sum_symmDiff]
  · refine ⟨⟨?_, ?_⟩, ?_⟩
    · intro x hx
      rw [Finset.mem_singleton] at hx
      rw [Finset.mem_range]
      omega
    · exact Finset.mem_singleton_self j
    · rw [Finset.sum_singleton]

/-- The pivot of a freshly reduced column differs from every committed
pivot. -/
theorem reduceColV_fresh (acc : List (Col × Col)) (c v : Col) :
    ∀ i, pivot (reduceColV acc c v).1 = some i →
      ∀ k, k < acc.length → pivot (rFam acc k) ≠ some i := by
  intro i hp k hk
  rw [reduceColV_fst] at hp
  have hmem : rFam acc k ∈ acc.map Prod.fst := by
    unfold rFam
    rw [List.getD_eq_getElem _ _ hk]
    exact List.mem_map_of_mem Prod.fst (acc.getElem_mem hk)
  exact reduceColFuel_no_claimant (pivotNat c) c le_rfl i hp _ hmem

/-- The serial run establishes the three invariants over the whole matrix. -/
theorem reduceMatrixVAux_inv (D : List Col) :
    ∀ (rest : List Col) (acc : List (Col × Col)),
      rest = D.drop acc.length → acc.length ≤ D.length →
      Unitriangular acc.length (vFam acc) →
      IsDV acc.length (colAt D) (rFam acc) (vFam acc) →
      Reduced acc.length (rFam acc) →
      Unitriangular D.length (vFam (reduceMatrixVAux acc rest)) ∧
      IsDV D.length (colAt D) (rFam (reduceMatrixVAux acc rest))
        (vFam (reduceMatrixVAux acc rest)) ∧
      Reduced D.length (rFam (reduceMatrixVAux acc rest)) := by
  intro rest
  induction rest with
  | nil =>
    intro acc hdrop hlen htri hdv hred
    have hlen' : acc.length = D.length := by
      have h1 := congrArg List.length hdrop
      simp [List.length_drop] at h1
      omega
    rw [reduceMatrixVAux, ← hlen']
    exact ⟨htri, hdv, hred⟩
  | cons c rest ih =>
    intro acc hdrop hlen htri hdv hred
    set j := acc.length with hj
    have hjlt : j < D.length := by
      by_contra hcon
      push_neg at hcon
      rw [List.drop_eq_nil_of_le hcon] at hdrop
      exact absurd hdrop (by simp)
    have hdropj := List.drop_eq_getElem_cons hjlt
    rw [hdropj] at hdrop
    have hinj := (List.cons.injEq _ _ _ _).mp hdrop
    have hc : c = colAt D j := by
      unfold colAt
      rw [List.getD_eq_getElem _ _ hjlt]
      exact hinj.1
    have hrest : rest = D.drop (j + 1) := hinj.2
    set cvnew := reduceColV acc c {j} with hcv
    have hlen'' : (acc ++ [cvnew]).length = j + 1 := by simp
    have hprop := reduceColV_step_prop D acc htri hdv
    rw [← hc] at hprop
    obtain ⟨⟨hsubnew, hmemnew⟩, hdvnew⟩ := hprop
    have htri' : Unitriangular (acc ++ [cvnew]).length (vFam (acc ++ [cvnew])) := by
      rw [hlen'']
      intro k hk
      rcases Nat.lt_or_ge k j with hklt | hkge
      · rw [vFam_append_lt hklt]
        exact htri k hklt
      · obtain rfl : k = j := by omega
        rw [vFam_append_self]
        exact ⟨hsubnew, hmemnew⟩
    have hdv' : IsDV (acc ++ [cvnew]).length (colAt D) (rFam (acc ++ [cvnew]))
        (vFam (acc ++ [cvnew])) := by
      rw [hlen'']
      intro k hk
      rcases Nat.lt_or_ge k j with hklt | hkge
      · rw [vFam_append_lt hklt, rFam_append_lt hklt]
        exact hdv k hklt
      · obtain rfl : k = j := by omega
        rw [vFam_append_self, rFam_append_self]
        exact hdvnew
    have hred' : Reduced (acc ++ [cvnew]).length (rFam (acc ++ [cvnew])) := by
      rw [hlen'']
      intro k k' hk hk' hne hne' hpp
      rcases Nat.lt_or_ge k j with hklt | hkge <;>
        rcases Nat.lt_or_ge k' j with hklt' | hkge'
      · rw [rFam_append_lt hklt] at hne hpp
        rw [rFam_append_lt hklt'] at hne' hpp
        exact hred k k' hklt hklt' hne hne' hpp
      · obtain rfl : k' = j := by omega
        rw [rFam_append_lt hklt] at hne hpp
        rw [rFam_append_self] at hne' hpp
        obtain ⟨i, hi⟩ : ∃ i, pivot cvnew.1 = some i := by
          cases hpi : pivot cvnew.1 with
          | none => exact absurd (pivot_eq_none_iff.mp hpi) hne'
          | some i => exact ⟨i, rfl⟩
        exact absurd (hpp.trans hi)
          (reduceColV_fresh acc c {j} i hi k hklt)
      · obtain rfl : k = j := by omega
        rw [rFam_append_lt hklt'] at hne' hpp
        rw [rFam_append_self] at hne hpp
        obtain ⟨i, hi⟩ : ∃ i, pivot cvnew.1 = some i := by
          cases hpi : pivot cvnew.1 with
          | none => exact absurd (pivot_eq_none_iff.mp hpi) hne
          | some i => exact ⟨i, rfl⟩
        exact absurd (hpp.symm.trans hi)
          (reduceColV_fresh acc c {j} i hi k' hklt')
      · omega
    have := ih (acc ++ [cvnew]) (by rw [hlen'']; exact hrest)
      (by rw [hlen'']; omega) htri' hdv' hred'
    rw [reduceMatrixVAux]
    exact this

/-- Packaged: the serial reduction of `D` is a reduced unitriangular
decomposition `R = D·V`. -/
theorem serial_reduction_facts (D : List Col) :
    ∃ V : ℕ → Col, Unitriangular D.length V ∧
      IsDV D.length (colAt D) (colAt (reduceMatrix D)) V ∧
      Reduced D.length (colAt (reduceMatrix D)) := by
  obtain ⟨htri, hdv, hred⟩ := reduceMatrixVAux_inv D D [] (by simp)
    (by simp) (by intro k hk; simp at hk) (by intro k hk; simp at hk)
    (by intro k k' hk; simp at hk)
  have hfam : ∀ k, colAt (reduceMatrix D) k = rFam (reduceMatrixV D) k := by
    intro k
    unfold colAt rFam
    rw [← reduceMatrixV_fst D]
    rcases Nat.lt_or_ge k (reduceMatrixV D).length with hk | hk
    · rw [List.getD_eq_getElem _ _ (by simpa using hk),
        List.getD_eq_getElem _ _ hk]
      simp
    · rw [List.getD_eq_default _ _ (by simpa using hk),
        List.getD_eq_default _ _ hk]
  refine ⟨vFam (reduceMatrixV D), htri, ?_, ?_⟩
  · intro k hk
    rw [hfam k]
    exact hdv k hk
  · intro k k' hk hk' hne hne' hpp
    rw [hfam k] at hne hpp
    rw [hfam k'] at hne' hpp
    exact hred k k' hk hk' hne hne' hpp

/-- Two column lists of the same length with the same pivots emit the same
diagram. -/
theorem diagramOf_eq_of_pivots {R₁ R₂ : List Col}
    (hlen : R₁.length = R₂.length)
    (hpiv : ∀ j, j < R₁.length → pivot (colAt R₁ j) = pivot (colAt R₂ j)) :
    diagramOf R₁ = diagramOf R₂ := by
  have hpaired : pairedOf R₁ = pairedOf R₂ := by
    apply Finset.ext
    rintro ⟨i, j⟩
    rw [mem_pairedOf, mem_pairedOf, ← hlen]
    constructor
    · rintro ⟨hj, hp⟩
      exact ⟨hj, by rw [show R₂.getD j ∅ = colAt R₂ j from rfl,
        ← hpiv j hj]; exact hp⟩
    · rintro ⟨hj, hp⟩
      exact ⟨hj, by rw [show R₁.getD j ∅ = colAt R₁ j from rfl,
        hpiv j hj]; exact hp⟩
  unfold diagramOf unpairedOf
  rw [hpaired, hlen]

/-- Any reduced unitriangular decomposition of `D` emits the serial
diagram: the pairing is independent of the reduction strategy. -/
theorem diagram_unique {D R : List Col} {V : ℕ → Col}
    (hlen : R.length = D.length)
    (htri : Unitriangular D.length V)
    (hdv : IsDV D.length (colAt D) (colAt R) V)
    (hred : Reduced D.length (colAt R)) :
    diagramOf R = serialDiagram D := by
  obtain ⟨V₀, htri₀, hdv₀, hred₀⟩ := serial_reduction_facts D
  have hpiv : ∀ j, j < D.length →
      pivot (colAt R j) = pivot (colAt (reduceMatrix D) j) :=
    pivots_unique htri hdv hred htri₀ hdv₀ hred₀
  unfold serialDiagram
  apply diagramOf_eq_of_pivots
  · rw [hlen, reduceMatrix_length]
  · intro j hj
    exact hpiv j (by omega)

/-! ## Correctness of the lock-free system -/

theorem getD_set {α : Type} {l : List α} {i i' : ℕ} {x d : α} :
    (l.set i x).getD i' d =
      if i = i' ∧ i < l.length then x else l.getD i' d := by
  rw [List.getD_eq_getElem?_getD, List.getD_eq_getElem?_getD,
    List.getElem?_set]
  by_cases h1 : i = i'
  · subst h1
    by_cases h2 : i < l.length
    · simp [h2]
    · have hnone : l[i]? = none := by
        rw [List.getElem?_eq_none_iff]
        omega
      simp [h2, hnone]
  · simp [h1]

theorem colAt_set {l : List Col} {j k : ℕ} {x : Col} :
    colAt (l.set j x) k =
      if j = k ∧ j < l.length then x else colAt l k := by
  unfold colAt
  exact getD_set

theorem lfStep_oob {s : LFState} {j : ℕ} (hj : ¬ j < s.R.length) :
    lfStep s j = s := by
  simp only [lfStep, if_neg hj]

theorem lfStep_nopiv {s : LFState} {j : ℕ} (hj : j < s.R.length)
    (hp : pivot (colAt s.R j) = none) : lfStep s j = s := by
  simp only [lfStep, if_pos hj, hp]

theorem lfStep_claim {s : LFState} {j i : ℕ} (hj : j < s.R.length)
    (hp : pivot (colAt s.R j) = some i) (hPi : s.P.getD i none = none) :
    lfStep s j = ⟨s.R, s.V, s.P.set i (some j)⟩ := by
  simp only [lfStep, if_pos hj, hp, hPi]

theorem lfStep_self {s : LFState} {j i : ℕ} (hj : j < s.R.length)
    (hp : pivot (colAt s.R j) = some i) (hPi : s.P.getD i none = some j) :
    lfStep s j = s := by
  simp only [lfStep, if_pos hj, hp, hPi]
  simp

theorem lfStep_add {s : LFState} {j i k : ℕ} (hj : j < s.R.length)
    (hp : pivot (colAt s.R j) = some i) (hPi : s.P.getD i none = some k)
    (hkj : k ≠ j) (hklt : k < j) :
    lfStep s j = ⟨s.R.set j (colAt s.R j ∆ colAt s.R k),
      s.V.set j (colAt s.V j ∆ colAt s.V k), s.P⟩ := by
  simp only [lfStep, if_pos hj, hp, hPi, if_neg hkj, if_pos hklt]

theorem lfStep_steal {s : LFState} {j i k : ℕ} (hj : j < s.R.length)
    (hp : pivot (colAt s.R j) = some i) (hPi : s.P.getD i none = some k)
    (hkj : k ≠ j) (hklt : ¬ k < j) :
    lfStep s j = ⟨s.R, s.V, s.P.set i (some j)⟩ := by
  simp only [lfStep, if_pos hj, hp, hPi, if_neg hkj, if_neg hklt]

/-- One lock-free step preserves the internal invariant. -/
theorem lfStep_inv {D : List Col} {s : LFState} (hinv : LFInv D s)
    (j : ℕ) : LFInv D (lfStep s j) := by
  obtain ⟨hRlen, hVlen, hP, htri, hdv⟩ := hinv
  by_cases hj : j < s.R.length
  case neg =>
    rw [lfStep_oob hj]
    exact ⟨hRlen, hVlen, hP, htri, hdv⟩
  case pos =>
    have hjD : j < D.length := by omega
    cases hpiv : pivot (colAt s.R j) with
    | none =>
      rw [lfStep_nopiv hj hpiv]
      exact ⟨hRlen, hVlen, hP, htri, hdv⟩
    | some i =>
      cases hPi : s.P.getD i none with
      | none =>
        rw [lfStep_claim hj hpiv hPi]
        refine ⟨hRlen, hVlen, ?_, htri, hdv⟩
        intro i' k' hk'
        rw [show (⟨s.R, s.V, s.P.set i (some j)⟩ : LFState).P =
          s.P.set i (some j) from rfl, getD_set] at hk'
        by_cases hcase : i = i' ∧ i < s.P.length
        · rw [if_pos hcase] at hk'
          obtain rfl : j = k' := by simpa using hk'
          exact ⟨hjD, hcase.1 ▸ hpiv⟩
        · rw [if_neg hcase] at hk'
          exact hP i' k' hk'
      | some k =>
        by_cases hkj : k = j
        · rw [lfStep_self hj hpiv (hkj ▸ hPi)]
          exact ⟨hRlen, hVlen, hP, htri, hdv⟩
        · by_cases hklt : k < j
          · rw [lfStep_add hj hpiv hPi hkj hklt]
            obtain ⟨hkD, hpivk⟩ := hP i k hPi
            refine ⟨by simpa using hRlen, by simpa using hVlen, ?_, ?_, ?_⟩
            · intro i' k' hk'
              obtain ⟨hk'D, hpivk'⟩ := hP i' k' hk'
              refine ⟨hk'D, ?_⟩
              have hk'j : k' ≠ j := by
                intro hcon
                subst hcon
                have hii : i = i' := by
                  rw [hpiv] at hpivk'
                  simpa using hpivk'
                subst hii
                rw [hPi] at hk'
                exact hkj (by simpa using hk')
              rw [show colAt ((⟨s.R.set j (colAt s.R j ∆ colAt s.R k),
                s.V.set j (colAt s.V j ∆ colAt s.V k), s.P⟩ :
                  LFState).R) k' = colAt (s.R.set j
                    (colAt s.R j ∆ colAt s.R k)) k' from rfl,
                colAt_set, if_neg (by intro hcon; exact hk'j hcon.1.symm)]
              exact hpivk'
            · intro m hm
              rw [show colAt ((⟨s.R.set j (colAt s.R j ∆ colAt s.R k),
                s.V.set j (colAt s.V j ∆ colAt s.V k), s.P⟩ :
                  LFState).V) m = colAt (s.V.set j
                    (colAt s.V j ∆ colAt s.V k)) m from rfl, colAt_set]
              by_cases hmj : j = m ∧ j < s.V.length
              · rw [if_pos hmj]
                obtain ⟨rfl, _⟩ := hmj
                obtain ⟨hsubj, hmemj⟩ := htri j hjD
                obtain ⟨hsubk, _⟩ := htri k hkD
                constructor
                · intro x hx
                  rw [Finset.mem_symmDiff] at hx
                  rcases hx with ⟨hx1, _⟩ | ⟨hx2, _⟩
                  · exact hsubj hx1
                  · have := hsubk hx2
                    rw [Finset.mem_range] at this ⊢
                    omega
                · rw [Finset.mem_symmDiff]
                  left
                  refine ⟨hmemj, fun hcon => ?_⟩
                  have := hsubk hcon
                  rw [Finset.mem_range] at this
                  omega
              · rw [if_neg hmj]
                exact htri m hm
            · intro m hm
              rw [show colAt ((⟨s.R.set j (colAt s.R j ∆ colAt s.R k),
                s.V.set j (colAt s.V j ∆ colAt s.V k), s.P⟩ :
                  LFState).R) m = colAt (s.R.set j
                    (colAt s.R j ∆ colAt s.R k)) m from rfl,
                show colAt ((⟨s.R.set j (colAt s.R j ∆ colAt s.R k),
                s.V.set j (colAt s.V j ∆ colAt s.V k), s.P⟩ :
                  LFState).V) m = colAt (s.V.set j
                    (colAt s.V j ∆ colAt s.V k)) m from rfl,
                colAt_set, colAt_set]
              by_cases hmj : j = m
              · have hjV : j < s.V.length := by omega
                rw [if_pos ⟨hmj, hj⟩, if_pos ⟨hmj, hjV⟩]
                subst hmj
                rw [phi_symmDiff, hdv j hjD, hdv k hkD, sum_symmDiff]
              · rw [if_neg (fun hcon => hmj hcon.1),
                  if_neg (fun hcon => hmj hcon.1)]
                exact hdv m hm
          · rw [lfStep_steal hj hpiv hPi hkj hklt]
            refine ⟨hRlen, hVlen, ?_, htri, hdv⟩
            intro i' k' hk'
            rw [show (⟨s.R, s.V, s.P.set i (some j)⟩ : LFState).P =
              s.P.set i (some j) from rfl, getD_set] at hk'
            by_cases hcase : i = i' ∧ i < s.P.length
            · rw [if_pos hcase] at hk'
              obtain rfl : j = k' := by simpa using hk'
              exact ⟨hjD, hcase.1 ▸ hpiv⟩
            · rw [if_neg hcase] at hk'
              exact hP i' k' hk'

/-- The initial state satisfies the invariant. -/
theorem initLF_inv (D : List Col) : LFInv D (initLF D) := by
  refine ⟨rfl, by simp [initLF], ?_, ?_, ?_⟩
  · intro i k hk
    exfalso
    rw [show (initLF D).P = List.replicate D.length none from rfl] at hk
    rcases Nat.lt_or_ge i D.length with hi | hi
    · rw [List.getD_eq_getElem _ _ (by simpa using hi)] at hk
      simp at hk
    · rw [List.getD_eq_default _ _ (by simpa using hi)] at hk
      exact absurd hk (by simp)
  · intro m hm
    have hcol : colAt (initLF D).V m = {m} := by
      unfold colAt initLF
      rw [List.getD_eq_getElem _ _ (by simpa using hm)]
      simp
    rw [hcol]
    constructor
    · intro x hx
      rw [Finset.mem_singleton] at hx
      rw [Finset.mem_range]
      omega
    · exact Finset.mem_singleton_self m
  · intro m hm
    have hcol : colAt (initLF D).V m = {m} := by
      unfold colAt initLF
      rw [List.getD_eq_getElem _ _ (by simpa using hm)]
      simp
    rw [hcol, Finset.sum_singleton]
    rfl

/-- Any run satisfies the invariant. -/
theorem lfRun_inv (D : List Col) (sched : List ℕ) :
    LFInv D (lfRun D sched) := by
  unfold lfRun
  have h : ∀ (l : List ℕ) (s : LFState), LFInv D s →
      LFInv D (l.foldl lfStep s) := by
    intro l
    induction l with
    | nil => intro s hs; exact hs
    | cons a l ih =>
      intro s hs
      exact ih (lfStep s a) (lfStep_inv hs a)
  exact h sched (initLF D) (initLF_inv D)

/-- A quiescent state is reduced: committed pivots are distinct because
the pivot map is a function. -/
theorem lfQuiescent_reduced {D : List Col} {s : LFState} (hinv : LFInv D s)
    (hq : lfQuiescent s = true) : Reduced D.length (colAt s.R) := by
  obtain ⟨hRlen, _, hP, _, _⟩ := hinv
  intro j k hj hk hne hne' hpp
  have hcommit : ∀ m, m < D.length → lfCommitted s m = true := by
    intro m hm
    unfold lfQuiescent at hq
    rw [List.all_eq_true] at hq
    exact hq m (by rw [List.mem_range]; omega)
  obtain ⟨i, hi⟩ : ∃ i, pivot (colAt s.R j) = some i := by
    cases hpj : pivot (colAt s.R j) with
    | none => exact absurd (pivot_eq_none_iff.mp hpj) hne
    | some i => exact ⟨i, rfl⟩
  have hcj := hcommit j hj
  have hck := hcommit k hk
  unfold lfCommitted at hcj hck
  rw [hi] at hcj
  rw [← hpp, hi] at hck
  have hj' : s.P.getD i none = some j := by simpa using hcj
  have hk' : s.P.getD i none = some k := by simpa using hck
  rw [hj'] at hk'
  simpa using hk'

/-- Any quiescent run of the lock-free system emits the serial diagram. -/
theorem lfRun_diagram (D : List Col) (sched : List ℕ)
    (hq : lfQuiescent (lfRun D sched) = true) :
    lfDiagram (lfRun D sched) = serialDiagram D := by
  obtain ⟨hRlen, hVlen, hP, htri, hdv⟩ := lfRun_inv D sched
  have hred : Reduced D.length (colAt (lfRun D sched).R) :=
    lfQuiescent_reduced (lfRun_inv D sched) hq
  exact diagram_unique hRlen htri hdv hred

/-- C3: thread invariance — `num_threads` and `min_chunk_len` only select
the schedule of the lock-free system; any two runs that reach quiescence,
under any schedules whatsoever, emit the same diagram. -/
theorem claim_C3 (D : List Col) (sched₁ sched₂ : List ℕ)
    (h₁ : lfQuiescent (lfRun D sched₁) = true)
    (h₂ : lfQuiescent (lfRun D sched₂) = true) :
    lfDiagram (lfRun D sched₁) = lfDiagram (lfRun D sched₂) := by
  rw [lfRun_diagram D sched₁ h₁, lfRun_diagram D sched₂ h₂]

theorem claim_C3_witness :
    lfQuiescent (lfRun [∅, {0}] [1]) = true ∧
    lfQuiescent (lfRun [∅, {0}] [0, 1, 1]) = true ∧
    lfDiagram (lfRun [∅, {0}] [1]) = lfDiagram (lfRun [∅, {0}] [0, 1, 1]) :=
  ⟨by decide, by decide, claim_C3 [∅, {0}] [1] [0, 1, 1]
    (by decide) (by decide)⟩

/-! ## V maintenance does not alter R: `with_reps` agrees with the plain
pipeline -/

theorem clearingStepV_proj (D : List Col) (s : ClearStateV) (j : ℕ) :
    projCSV (clearingStepV D s j) = clearingStep D (projCSV s) j := by
  have hkill : (projCSV s).killed = s.killed := rfl
  by_cases hj : j ∈ s.killed
  · simp only [clearingStepV, clearingStep, hkill, if_pos hj, projCSV]
    simp
  · have hfst : (reduceColV (s.done.map Prod.snd) (colAt D j) {j}).1 =
        reduceCol ((projCSV s).done.map Prod.snd) (colAt D j) := by
      rw [reduceColV_fst]
      congr 1
      unfold projCSV
      rw [List.map_map, List.map_map]
      rfl
    simp only [clearingStepV, clearingStep, hkill, if_neg hj]
    rw [← hfst]
    cases hp : pivot (reduceColV (s.done.map Prod.snd) (colAt D j) {j}).1 with
    | none =>
      simp only [projCSV]
      simp
    | some i =>
      simp only [projCSV]
      simp

theorem clearingRunV_proj (D : List Col) (order : List ℕ) :
    (clearingRunV D order).map (fun p => (p.1, p.2.1)) =
      clearingRun D order := by
  have h : ∀ (l : List ℕ) (s : ClearStateV),
      projCSV (l.foldl (clearingStepV D) s) =
        l.foldl (clearingStep D) (projCSV s) := by
    intro l
    induction l with
    | nil => intro s; rfl
    | cons a l ih =>
      intro s
      rw [List.foldl_cons, List.foldl_cons, ih, clearingStepV_proj]
  unfold clearingRunV clearingRun
  have := h order ⟨[], ∅⟩
  have hdone := congrArg ClearState.done this
  exact hdone

theorem map_toFinset {α β : Type} [DecidableEq α] [DecidableEq β]
    (l : List α) (f : α → β) : (l.map f).toFinset = l.toFinset.image f := by
  ext x
  simp

theorem assembleRV_fst (n : ℕ) (done : List (ℕ × (Col × Col))) :
    (assembleRV n done).map Prod.fst =
      assembleR n (done.map fun p => (p.1, p.2.1)) := by
  unfold assembleRV assembleR
  rw [List.map_map]
  apply List.map_congr_left
  intro j _
  simp only [Function.comp_apply]
  have hfind : (done.map fun p => ((p.1, p.2.1) : ℕ × Col)).find?
      (fun p => p.1 == j) =
      (done.find? fun p => p.1 == j).map fun p => (p.1, p.2.1) := by
    rw [List.find?_map]
    rfl
  rw [hfind]
  cases hf : done.find? fun p => p.1 == j with
  | none => rfl
  | some x => rfl

theorem pairedListOf_toFinset (R : List Col) :
    (pairedListOf R).toFinset = pairedOf R := by
  apply Finset.ext
  rintro ⟨i, j⟩
  rw [List.mem_toFinset, mem_pairedOf]
  unfold pairedListOf
  rw [List.mem_filterMap]
  constructor
  · rintro ⟨j', hj', hmatch⟩
    cases hp : pivot (R.getD j' ∅) with
    | none => rw [hp] at hmatch; exact absurd hmatch (by simp)
    | some i' =>
      rw [hp] at hmatch
      have : i' = i ∧ j' = j := by simpa using hmatch
      obtain ⟨rfl, rfl⟩ := this
      exact ⟨by simpa using hj', hp⟩
  · rintro ⟨hj, hp⟩
    exact ⟨j, by simpa using hj, by rw [hp]⟩

theorem unpairedListOf_toFinset (R : List Col) :
    (unpairedListOf R).toFinset = unpairedOf R := by
  apply Finset.ext
  intro j
  rw [List.mem_toFinset]
  unfold unpairedListOf
  rw [List.mem_filter]
  constructor
  · rintro ⟨_, hdec⟩
    simpa using hdec
  · intro hmem
    have hj : j < R.length := by
      have := mem_unpairedOf.mp hmem
      exact this.1
    exact ⟨by simpa using hj, by simpa using hmem⟩

theorem antiT_length (D : List Col) : (antiT D).length = D.length := by
  unfold antiT
  simp

theorem colsOf_length (input : List AnnCol) :
    (colsOf input).length = input.length := by
  unfold colsOf
  simp

/-- C9: the paired and unpaired collections of
`compute_pairings_with_reps`, taken as sets, equal those of
`compute_pairings` with default options, on every input. -/
theorem claim_C9 (input : List AnnCol) :
    (computePairingsWithReps input).map
        (fun d => (d.paired.toFinset, d.unpaired.toFinset)) =
      (computePairings input).map (fun d => (d.paired, d.unpaired)) := by
  unfold computePairingsWithReps computePairings computePairingsE
  by_cases hvalid : input.all (fun c => validCol input.length c.2)
  case neg =>
    rw [if_neg hvalid, if_neg hvalid]
    rfl
  case pos =>
    rw [if_pos hvalid, if_pos hvalid]
    simp only [Except.map]
    congr 1
    have hlenAT : (antiT (colsOf input)).length = input.length := by
      rw [antiT_length, colsOf_length]
    have hR : (assembleRV input.length
        (clearingRunV (antiT (colsOf input))
          (strataOrder (antiTDims (dimsOf input))))).map Prod.fst =
        assembleR input.length
          (clearingRun (antiT (colsOf input))
            (strataOrder (antiTDims (dimsOf input)))) := by
      rw [assembleRV_fst, clearingRunV_proj]
    simp only [reducePhase, if_pos rfl, clearingDiagram, remapDiagram,
      diagramOf, hlenAT]
    rw [← hR, Prod.mk.injEq]
    constructor
    · rw [map_toFinset, pairedListOf_toFinset]
      simp
    · rw [map_toFinset, unpairedListOf_toFinset]
      simp

/-! ## Clearing: the boundary algebra and the strata order -/

theorem Dapp_symmDiff (D : List Col) (u v : Col) :
    Dapp D (u ∆ v) = Dapp D u + Dapp D v :=
  sum_symmDiff u v fun k => phi (colAt D k)

theorem Dapp_singleton (D : List Col) (k : ℕ) :
    Dapp D {k} = phi (colAt D k) := Finset.sum_singleton _ _

theorem Dapp_empty (D : List Col) : Dapp D ∅ = 0 := Finset.sum_empty

/-- Under `D ∘ D = 0`, the boundary of any column in the image of `D`
vanishes: if `phi w = Dapp D u` then `Dapp D w = 0`. -/
theorem Dapp_of_phi_eq {D : List Col} (hdd : BoundarySq D) :
    ∀ u : Col, (∀ k ∈ u, k < D.length) → ∀ w : Col,
      phi w = Dapp D u → Dapp D w = 0 := by
  intro u
  induction u using Finset.induction_on with
  | empty =>
    intro _ w hw
    rw [Dapp_empty] at hw
    have hwe : w = ∅ := phi_inj (by rw [hw, phi_empty])
    rw [hwe]
    exact Dapp_empty D
  | insert ha =>
    rename_i a u ih
    intro hbound w hw
    rw [show Dapp D (insert a u) = phi (colAt D a) + Dapp D u from by
      unfold Dapp; rw [Finset.sum_insert ha]] at hw
    have hw' : phi (w ∆ colAt D a) = Dapp D u := by
      rw [phi_symmDiff, hw, add_comm (phi (colAt D a)) (Dapp D u),
        add_assoc, zmod2_add_self, add_zero]
    have h0 : Dapp D (w ∆ colAt D a) = 0 :=
      ih (fun k hk => hbound k (Finset.mem_insert_of_mem hk)) _ hw'
    have hwe : w = (w ∆ colAt D a) ∆ colAt D a := by
      apply phi_inj
      rw [phi_symmDiff, phi_symmDiff, add_assoc, zmod2_add_self, add_zero]
    rw [hwe, Dapp_symmDiff, h0, zero_add]
    exact hdd a (hbound a (Finset.mem_insert_self a u))

theorem getD_le_foldr_max (dims : List ℕ) :
    ∀ j, j < dims.length → dims.getD j 0 ≤ dims.foldr max 0 := by
  induction dims with
  | nil => intro j hj; simp at hj
  | cons a l ih =>
    intro j hj
    cases j with
    | zero =>
      rw [show (a :: l).getD 0 0 = a from rfl]
      exact le_max_left _ _
    | succ j =>
      rw [show (a :: l).getD (j + 1) 0 = l.getD j 0 from rfl]
      exact le_trans (ih j (by simpa using hj)) (le_max_right _ _)

theorem mem_strataOrder {dims : List ℕ} {j : ℕ} :
    j ∈ strataOrder dims ↔ j < dims.length := by
  unfold strataOrder
  rw [List.mem_flatMap]
  constructor
  · rintro ⟨d, _, hj⟩
    rw [List.mem_filter] at hj
    simpa using hj.1
  · intro hj
    refine ⟨dims.getD j 0, ?_, ?_⟩
    · rw [List.mem_reverse, List.mem_range]
      have := getD_le_foldr_max dims j hj
      omega
    · rw [List.mem_filter]
      exact ⟨by simpa using hj, by simp⟩

theorem strataOrder_pairwise (dims : List ℕ) :
    (strataOrder dims).Pairwise (ordRel dims) := by
  unfold strataOrder
  rw [List.flatMap_def, List.pairwise_flatten]
  constructor
  · intro l' hl'
    rw [List.mem_map] at hl'
    obtain ⟨d, _, rfl⟩ := hl'
    have hblock := (List.pairwise_lt_range dims.length).filter
      (fun j => dims.getD j 0 == d)
    apply List.Pairwise.imp_of_mem ?_ hblock
    intro a b ha hb hab
    rw [List.mem_filter] at ha hb
    right
    have h1 : dims.getD a 0 = d := by simpa using ha.2
    have h2 : dims.getD b 0 = d := by simpa using hb.2
    exact ⟨h1.trans h2.symm, hab⟩
  · rw [List.pairwise_map, List.pairwise_reverse]
    apply List.Pairwise.imp ?_ (List.pairwise_lt_range _)
    intro d d' hdd' x hx y hy
    rw [List.mem_filter] at hx hy
    left
    have h1 : dims.getD x 0 = d' := by simpa using hx.2
    have h2 : dims.getD y 0 = d := by simpa using hy.2
    omega

/-- `find?` by index succeeds whenever the index occurs, and returns an
element of the list with that index. -/
theorem find?_of_mem_fst {done : List (ℕ × Col)} {j : ℕ}
    (h : j ∈ done.map Prod.fst) :
    ∃ q, done.find? (fun p => p.1 == j) = some q ∧ q.1 = j ∧ q ∈ done := by
  induction done with
  | nil => simp at h
  | cons p done ih =>
    by_cases hp : p.1 = j
    · refine ⟨p, ?_, hp, List.mem_cons_self p done⟩
      rw [List.find?_cons_of_pos]
      simpa using hp
    · have h' : j ∈ done.map Prod.fst := by
        rcases List.mem_map.mp h with ⟨q, hq, hqj⟩
        rcases List.mem_cons.mp hq with rfl | hq'
        · exact absurd hqj hp
        · exact List.mem_map.mpr ⟨q, hq', hqj⟩
      obtain ⟨q, hfind, hqj, hqmem⟩ := ih h'
      refine ⟨q, ?_, hqj, List.mem_cons_of_mem p hqmem⟩
      rw [List.find?_cons_of_neg]
      · exact hfind
      · simpa using hp

/-- Appending a processed column preserves the clearing invariant,
provided the new column is in range, dimension-homogeneous, `D·W`
expressible, and pivot-fresh. -/
theorem ClearInv_append {dims : List ℕ} {D : List Col} {processed : List ℕ}
    {done : List (ℕ × Col)} {killed killed' : Finset ℕ} {j : ℕ} {r : Col}
    (hinv : ClearInv dims D processed ⟨done, killed⟩)
    (hj : j < D.length)
    (hrent : ∀ x ∈ r, x < D.length ∧ dims.getD x 0 + 1 = dims.getD j 0)
    (hrdv : ∃ W : Col, W ⊆ Finset.range (j + 1) ∧ j ∈ W ∧ phi r = Dapp D W)
    (hrdist : ∀ q ∈ done, r ≠ ∅ → q.2 ≠ ∅ → pivot r ≠ pivot q.2)
    (hkill' : ∀ i ∈ killed', ∃ W : Col,
      W ⊆ Finset.range (i + 1) ∧ i ∈ W ∧ Dapp D W = 0) :
    ClearInv dims D (processed ++ [j]) ⟨done ++ [(j, r)], killed'⟩ := by
  obtain ⟨hfst, hrange, hent, hdv, hdist, _⟩ := hinv
  refine ⟨?_, ?_, ?_, ?_, ?_, hkill'⟩
  · rw [List.map_append]
    rw [show (done.map Prod.fst : List ℕ) = processed from hfst]
    rfl
  · intro p hp
    rcases List.mem_append.mp hp with hp | hp
    · exact hrange p hp
    · obtain rfl : p = (j, r) := by simpa using hp
      exact hj
  · intro p hp
    rcases List.mem_append.mp hp with hp | hp
    · exact hent p hp
    · obtain rfl : p = (j, r) := by simpa using hp
      exact hrent
  · intro p hp
    rcases List.mem_append.mp hp with hp | hp
    · exact hdv p hp
    · obtain rfl : p = (j, r) := by simpa using hp
      exact hrdv
  · intro p hp q hq hpne hqne hpq
    rcases List.mem_append.mp hp with hp | hp
    · rcases List.mem_append.mp hq with hq | hq
      · exact hdist p hp q hq hpne hqne hpq
      · obtain rfl : q = (j, r) := by simpa using hq
        exact absurd hpq.symm (hrdist p hp hqne hpne)
    · obtain rfl : p = (j, r) := by simpa using hp
      rcases List.mem_append.mp hq with hq | hq
      · exact absurd hpq (hrdist q hq hpne hqne)
      · obtain rfl : q = (j, r) := by simpa using hq
        rfl

/-- The clearing step preserves the invariant, given dimension
consistency, the boundary property, and the strata processing order. -/
theorem clearingStep_inv {dims : List ℕ} {D : List Col}
    (hdim : DimsConsistent dims D) (hdd : BoundarySq D)
    {processed : List ℕ} {s : ClearState}
    (hinv : ClearInv dims D processed s)
    {j : ℕ} (hj : j < D.length)
    (hord : ∀ a ∈ processed, ordRel dims a j) :
    ClearInv dims D (processed ++ [j]) (clearingStep D s j) := by
  obtain ⟨hfst, hrange, hent, hdv, hdist, hkill⟩ := hinv
  have hinv' : ClearInv dims D processed ⟨s.done, s.killed⟩ :=
    ⟨hfst, hrange, hent, hdv, hdist, hkill⟩
  by_cases hjk : j ∈ s.killed
  · rw [show clearingStep D s j = ⟨s.done ++ [(j, ∅)], s.killed⟩ from by
      simp only [clearingStep, if_pos hjk]]
    obtain ⟨W, hWsub, hWmem, hWnull⟩ := hkill j hjk
    refine ClearInv_append hinv' hj (by intro x hx; simp at hx)
      ⟨W, ?_, hWmem, by rw [phi_empty, hWnull]⟩
      (fun q _ hne _ => absurd rfl hne) hkill
    intro x hx
    have := hWsub hx
    rw [Finset.mem_range] at this ⊢
    omega
  · have hrprop : (∀ x ∈ reduceCol (s.done.map Prod.snd) (colAt D j),
        x < D.length ∧ dims.getD x 0 + 1 = dims.getD j 0) ∧
        ∃ W : Col, W ⊆ Finset.range (j + 1) ∧ j ∈ W ∧
          phi (reduceCol (s.done.map Prod.snd) (colAt D j)) = Dapp D W := by
      apply reduceColFuel_invariant
        (fun c => (∀ x ∈ c, x < D.length ∧
            dims.getD x 0 + 1 = dims.getD j 0) ∧
          ∃ W : Col, W ⊆ Finset.range (j + 1) ∧ j ∈ W ∧
            phi c = Dapp D W) ?_ (pivotNat (colAt D j)) (colAt D j) ?_
      · rintro c d hd hpcd ⟨hcent, W, hWsub, hWmem, hWphi⟩
        obtain ⟨p, hpmem, rfl⟩ := List.mem_map.mp hd
        cases hpc : pivot c with
        | none =>
          have hpd : pivot p.2 = none := by rw [hpcd, hpc]
          have hce : c ∆ p.2 = c := by
            rw [pivot_eq_none_iff.mp hpd]
            simp
          rw [hce]
          exact ⟨hcent, W, hWsub, hWmem, hWphi⟩
        | some i =>
          have hpd : pivot p.2 = some i := by rw [hpcd, hpc]
          have hic : i ∈ c := pivot_mem hpc
          have hid : i ∈ p.2 := pivot_mem hpd
          have h1 := (hcent i hic).2
          have h2 := (hent p hpmem i hid).2
          have hplt : p.1 < j := by
            have hmem : p.1 ∈ processed := by
              rw [← hfst]
              exact List.mem_map.mpr ⟨p, hpmem, rfl⟩
            rcases hord p.1 hmem with h | h
            · omega
            · exact h.2
          obtain ⟨Wp, hWpsub, hWpmem, hWpphi⟩ := hdv p hpmem
          refine ⟨?_, W ∆ Wp, ?_, ?_, ?_⟩
          · intro x hx
            rw [Finset.mem_symmDiff] at hx
            rcases hx with ⟨hx1, _⟩ | ⟨hx2, _⟩
            · exact hcent x hx1
            · obtain ⟨hxn, hxd⟩ := hent p hpmem x hx2
              exact ⟨hxn, by omega⟩
          · intro x hx
            rw [Finset.mem_symmDiff] at hx
            rw [Finset.mem_range]
            rcases hx with ⟨hx1, _⟩ | ⟨hx2, _⟩
            · have := hWsub hx1
              rw [Finset.mem_range] at this
              omega
            · have := hWpsub hx2
              rw [Finset.mem_range] at this
              omega
          · rw [Finset.mem_symmDiff]
            left
            refine ⟨hWmem, fun hcon => ?_⟩
            have := hWpsub hcon
            rw [Finset.mem_range] at this
            omega
          · rw [phi_symmDiff, hWphi, hWpphi, Dapp_symmDiff]
      · refine ⟨fun x hx => hdim j hj x hx,
          {j}, ?_, Finset.mem_singleton_self j, ?_⟩
        · intro x hx
          rw [Finset.mem_singleton] at hx
          rw [Finset.mem_range]
          omega
        · rw [Dapp_singleton]
    obtain ⟨hrent, Wr, hWrsub, hWrmem, hWrphi⟩ := hrprop
    have hfresh : ∀ q ∈ s.done,
        reduceCol (s.done.map Prod.snd) (colAt D j) ≠ ∅ → q.2 ≠ ∅ →
        pivot (reduceCol (s.done.map Prod.snd) (colAt D j)) ≠
          pivot q.2 := by
      intro q hq hne hqne hcon
      obtain ⟨i, hi⟩ : ∃ i,
          pivot (reduceCol (s.done.map Prod.snd) (colAt D j)) = some i := by
        cases hp : pivot (reduceCol (s.done.map Prod.snd) (colAt D j)) with
        | none => exact absurd (pivot_eq_none_iff.mp hp) hne
        | some i => exact ⟨i, rfl⟩
      exact reduceColFuel_no_claimant (pivotNat (colAt D j)) (colAt D j)
        le_rfl i hi q.2 (List.mem_map.mpr ⟨q, hq, rfl⟩)
        (hcon ▸ hi)
    cases hpr : pivot (reduceCol (s.done.map Prod.snd) (colAt D j)) with
    | none =>
      rw [show clearingStep D s j = ⟨s.done ++
          [(j, reduceCol (s.done.map Prod.snd) (colAt D j))],
          s.killed⟩ from by
        simp only [clearingStep, if_neg hjk, hpr]]
      exact ClearInv_append hinv' hj hrent ⟨Wr, hWrsub, hWrmem, hWrphi⟩
        hfresh hkill
    | some i =>
      rw [show clearingStep D s j = ⟨s.done ++
          [(j, reduceCol (s.done.map Prod.snd) (colAt D j))],
          insert i s.killed⟩ from by
        simp only [clearingStep, if_neg hjk, hpr]]
      refine ClearInv_append hinv' hj hrent ⟨Wr, hWrsub, hWrmem, hWrphi⟩
        hfresh ?_
      intro i' hi'
      rcases Finset.mem_insert.mp hi' with rfl | hi'
      · refine ⟨reduceCol (s.done.map Prod.snd) (colAt D j), ?_,
          pivot_mem hpr, ?_⟩
        · intro x hx
          rw [Finset.mem_range]
          have := le_of_mem_pivot hpr hx
          omega
        · exact Dapp_of_phi_eq hdd Wr
            (fun k hk => by
              have := hWrsub hk
              rw [Finset.mem_range] at this
              omega) _ hWrphi
      · exact hkill i' hi'

/-- The whole clearing run establishes the invariant. -/
theorem clearingFold_inv {dims : List ℕ} {D : List Col}
    (hlen : dims.length = D.length)
    (hdim : DimsConsistent dims D) (hdd : BoundarySq D) :
    ∀ (post pre : List ℕ) (s : ClearState),
      pre ++ post = strataOrder dims → ClearInv dims D pre s →
      ClearInv dims D (pre ++ post) (post.foldl (clearingStep D) s) := by
  intro post
  induction post with
  | nil =>
    intro pre s _ hinv
    rw [List.append_nil]
    exact hinv
  | cons a post ih =>
    intro pre s hsplit hinv
    have haso : a ∈ strataOrder dims := by
      rw [← hsplit]
      exact List.mem_append.mpr (Or.inr (List.mem_cons_self a post))
    have ha : a < D.length := by
      rw [← hlen]
      exact mem_strataOrder.mp haso
    have hord : ∀ x ∈ pre, ordRel dims x a := by
      have hpw := strataOrder_pairwise dims
      rw [← hsplit, List.pairwise_append] at hpw
      intro x hx
      exact hpw.2.2 x hx a (List.mem_cons_self a post)
    have hstep := clearingStep_inv hdim hdd hinv ha hord
    have hres := ih (pre ++ [a]) (clearingStep D s a)
      (by rw [← hsplit]; simp) hstep
    rw [List.foldl_cons]
    rw [show pre ++ a :: post = (pre ++ [a]) ++ post from by simp]
    exact hres

theorem colAt_assembleR {n : ℕ} {done : List (ℕ × Col)} {j : ℕ}
    (hj : j < n) : colAt (assembleR n done) j =
      ((done.find? fun p => p.1 == j).map Prod.snd).getD ∅ := by
  unfold colAt assembleR
  rw [List.getD_eq_getElem _ _ (by simpa using hj)]
  simp

theorem assembleR_length {n : ℕ} {done : List (ℕ × Col)} :
    (assembleR n done).length = n := by
  unfold assembleR
  simp

/-- Core clearing-invariance theorem: for a dimension-consistent matrix
with `D ∘ D = 0`, the clearing reduction emits the serial diagram. -/
theorem clearing_eq_serial {dims : List ℕ} {D : List Col}
    (hlen : dims.length = D.length)
    (hdim : DimsConsistent dims D) (hdd : BoundarySq D) :
    clearingDiagram dims D = serialDiagram D := by
  have hinv0 : ClearInv dims D [] (⟨[], ∅⟩ : ClearState) := by
    refine ⟨rfl, ?_, ?_, ?_, ?_, ?_⟩ <;> intro p hp <;> simp at hp
  have hinv := clearingFold_inv hlen hdim hdd (strataOrder dims) []
    ⟨[], ∅⟩ rfl hinv0
  rw [List.nil_append] at hinv
  obtain ⟨hfst, _, _, hdv, hdist, _⟩ := hinv
  set done := clearingRun D (strataOrder dims) with hdone
  have hdone' : done =
      ((strataOrder dims).foldl (clearingStep D) ⟨[], ∅⟩).done := rfl
  -- every index has a processed column
  have hlookup : ∀ j, j < D.length → ∃ q,
      q ∈ ((strataOrder dims).foldl (clearingStep D) ⟨[], ∅⟩).done ∧
      q.1 = j ∧ colAt (assembleR D.length done) j = q.2 := by
    intro j hj
    have hjmem : j ∈ done.map Prod.fst := by
      rw [hdone', hfst]
      exact mem_strataOrder.mpr (by omega)
    obtain ⟨q, hfind, hq1, hqmem⟩ := find?_of_mem_fst hjmem
    refine ⟨q, hqmem, hq1, ?_⟩
    rw [colAt_assembleR hj, hfind]
    rfl
  -- build the V family by choice
  have hVex : ∀ j, ∃ W : Col, j < D.length →
      W ⊆ Finset.range (j + 1) ∧ j ∈ W ∧
      phi (colAt (assembleR D.length done) j) = Dapp D W := by
    intro j
    by_cases hj : j < D.length
    · obtain ⟨q, hqmem, hq1, hcol⟩ := hlookup j hj
      obtain ⟨W, hWsub, hWmem, hWphi⟩ := hdv q hqmem
      exact ⟨W, fun _ => ⟨hq1 ▸ hWsub, hq1 ▸ hWmem, by rw [hcol, hWphi]⟩⟩
    · exact ⟨∅, fun h => absurd h hj⟩
  choose Vc hVc using hVex
  have hA : clearingDiagram dims D = diagramOf (assembleR D.length done) :=
    rfl
  rw [hA]
  apply diagram_unique (V := Vc)
  · exact assembleR_length
  · intro j hj
    exact ⟨(hVc j hj).1, (hVc j hj).2.1⟩
  · intro j hj
    exact (hVc j hj).2.2
  · intro j k hj hk hne hne' hpp
    obtain ⟨q, hqmem, hq1, hcol⟩ := hlookup j hj
    obtain ⟨q', hq'mem, hq'1, hcol'⟩ := hlookup k hk
    rw [hcol] at hne hpp
    rw [hcol'] at hne' hpp
    have := hdist q hqmem q' hq'mem hne hne' hpp
    omega

theorem phi_sdSum (w : Finset ℕ) (f : ℕ → Col) :
    phi (sdSum w f) = ∑ k in w, phi (f k) := by
  induction w using Finset.induction_on with
  | empty => simp [sdSum, phi_empty]
  | insert ha =>
    rename_i a wset ih
    unfold sdSum at ih ⊢
    rw [Finset.fold_insert ha, Finset.sum_insert ha, phi_symmDiff, ih]

/-- A computable criterion for the boundary property. -/
theorem BoundarySq_of_sdSum {D : List Col}
    (h : ∀ j, j < D.length → sdSum (colAt D j) (colAt D) = ∅) :
    BoundarySq D := by
  intro j hj
  have := phi_sdSum (colAt D j) (colAt D)
  rw [h j hj, phi_empty] at this
  exact (this.symm.trans rfl : Dapp D (colAt D j) = 0)

theorem colAt_antiT {D : List Col} {j : ℕ} (hj : j < D.length) :
    colAt (antiT D) j = antiTCol D.length D j := by
  unfold colAt antiT
  rw [List.getD_eq_getElem _ _ (by simpa using hj)]
  simp

theorem mem_antiTCol {n : ℕ} {D : List Col} {j x : ℕ} :
    x ∈ antiTCol n D j ↔ x < n ∧ (n - 1 - j) ∈ colAt D (n - 1 - x) := by
  unfold antiTCol
  rw [Finset.mem_filter, Finset.mem_range]

theorem antiTDims_length (dims : List ℕ) :
    (antiTDims dims).length = dims.length := by
  unfold antiTDims
  simp

theorem antiTDims_getD {dims : List ℕ} {x : ℕ} (hx : x < dims.length) :
    (antiTDims dims).getD x 0 =
      dims.foldr max 0 - dims.getD (dims.length - 1 - x) 0 := by
  unfold antiTDims
  rw [List.getD_eq_getElem _ _ (by simpa using hx)]
  simp

/-- Dimension consistency transfers to the anti-transpose with the
reflected dimensions. -/
theorem dimsConsistent_antiT {dims : List ℕ} {D : List Col}
    (hlen : dims.length = D.length) (hdim : DimsConsistent dims D) :
    DimsConsistent (antiTDims dims) (antiT D) := by
  intro j hj x hx
  rw [antiT_length] at hj
  rw [colAt_antiT hj, mem_antiTCol] at hx
  obtain ⟨hxn, hmem⟩ := hx
  set n := D.length with hn
  have han : n - 1 - x < n := by omega
  obtain ⟨hbn, hdims⟩ := hdim (n - 1 - x) han (n - 1 - j) hmem
  have hx1 : (antiTDims dims).getD x 0 =
      dims.foldr max 0 - dims.getD (dims.length - 1 - x) 0 :=
    antiTDims_getD (by omega)
  have hx2 : (antiTDims dims).getD j 0 =
      dims.foldr max 0 - dims.getD (dims.length - 1 - j) 0 :=
    antiTDims_getD (by omega)
  have hle : dims.getD (dims.length - 1 - x) 0 ≤ dims.foldr max 0 :=
    getD_le_foldr_max dims _ (by omega)
  refine ⟨by rw [antiT_length]; omega, ?_⟩
  rw [hx1, hx2]
  rw [show dims.length - 1 - x = n - 1 - x from by omega,
    show dims.length - 1 - j = n - 1 - j from by omega] at *
  omega

/-- The boundary property transfers to the anti-transpose. -/
theorem boundarySq_antiT {dims : List ℕ} {D : List Col}
    (hdim : DimsConsistent dims D) (hdd : BoundarySq D) :
    BoundarySq (antiT D) := by
  intro j hj
  rw [antiT_length] at hj
  set n := D.length with hn
  rw [colAt_antiT hj]
  funext x
  show (∑ k in antiTCol n D j, phi (colAt (antiT D) k)) x = 0
  rw [Finset.sum_apply]
  by_cases hx : x < n
  case neg =>
    apply Finset.sum_eq_zero
    intro k hk
    have hkn : k < n := (mem_antiTCol.mp hk).1
    rw [colAt_antiT hkn, phi_eq_zero_iff]
    intro hcon
    exact hx (mem_antiTCol.mp hcon).1
  case pos =>
    have hterm : ∀ k ∈ antiTCol n D j, phi (colAt (antiT D) k) x =
        (if (n - 1 - j) ∈ colAt D (n - 1 - k) then
          (if (n - 1 - k) ∈ colAt D (n - 1 - x) then (1 : ZMod 2)
            else 0) else 0) := by
      intro k hk
      obtain ⟨hkn, hkmem⟩ := mem_antiTCol.mp hk
      rw [colAt_antiT hkn, if_pos hkmem]
      by_cases hm : (n - 1 - k) ∈ colAt D (n - 1 - x)
      · rw [if_pos hm, phi_eq_one_iff, mem_antiTCol]
        exact ⟨hx, hm⟩
      · rw [if_neg hm, phi_eq_zero_iff, mem_antiTCol]
        intro hcon
        exact hm hcon.2
    rw [Finset.sum_congr rfl hterm]
    have hsub : antiTCol n D j ⊆ Finset.range n := Finset.filter_subset _ _
    rw [Finset.sum_subset hsub (by
      intro k hk hknot
      rw [if_neg]
      intro hcon
      exact hknot (mem_antiTCol.mpr ⟨Finset.mem_range.mp hk, hcon⟩))]
    -- reindex m := n - 1 - k over range n
    have hreindex : ∑ k in Finset.range n,
        (if (n - 1 - j) ∈ colAt D (n - 1 - k) then
          (if (n - 1 - k) ∈ colAt D (n - 1 - x) then (1 : ZMod 2)
            else 0) else 0) =
        ∑ m in Finset.range n,
        (if (n - 1 - j) ∈ colAt D m then
          (if m ∈ colAt D (n - 1 - x) then (1 : ZMod 2) else 0) else 0) := by
      apply Finset.sum_nbij' (fun k => n - 1 - k) (fun m => n - 1 - m)
      · intro k hk
        rw [Finset.mem_range] at hk ⊢
        omega
      · intro m hm
        rw [Finset.mem_range] at hm ⊢
        omega
      · intro k hk
        rw [Finset.mem_range] at hk
        omega
      · intro m hm
        rw [Finset.mem_range] at hm
        omega
      · intro k _
        rfl
    rw [hreindex]
    have hDa : colAt D (n - 1 - x) ⊆ Finset.range n := by
      intro m hm
      rw [Finset.mem_range]
      exact (hdim (n - 1 - x) (by omega) m hm).1
    have hswap : ∀ m ∈ Finset.range n,
        (if (n - 1 - j) ∈ colAt D m then
          (if m ∈ colAt D (n - 1 - x) then (1 : ZMod 2) else 0) else 0) =
        (if m ∈ colAt D (n - 1 - x) then
          (if (n - 1 - j) ∈ colAt D m then (1 : ZMod 2) else 0) else 0) := by
      intro m _
      by_cases h1 : (n - 1 - j) ∈ colAt D m <;>
        by_cases h2 : m ∈ colAt D (n - 1 - x) <;> simp [h1, h2]
    rw [Finset.sum_congr rfl hswap]
    rw [← Finset.sum_subset hDa (by
      intro m _ hmnot
      rw [if_neg hmnot])]
    have hsummand : ∀ m ∈ colAt D (n - 1 - x),
        (if m ∈ colAt D (n - 1 - x) then
          (if (n - 1 - j) ∈ colAt D m then (1 : ZMod 2) else 0) else 0) =
        phi (colAt D m) (n - 1 - j) := by
      intro m hm
      rw [if_pos hm]
      by_cases hb : (n - 1 - j) ∈ colAt D m <;> simp [phi, hb]
    rw [Finset.sum_congr rfl hsummand]
    have h0 : Dapp D (colAt D (n - 1 - x)) (n - 1 - j) = 0 := by
      rw [hdd (n - 1 - x) (by omega)]
      rfl
    rw [← h0]
    unfold Dapp
    rw [Finset.sum_apply]

theorem dimsOf_length (input : List AnnCol) :
    (dimsOf input).length = input.length := by
  unfold dimsOf
  simp

/-- Counterexample to C4 as stated: on a valid annotated input violating
`D ∘ D = 0` (a half-open edge), and on one with inconsistent dimension
annotations, clearing changes the emitted diagram. -/
theorem claim_C4_counterexample :
    okPaired (computePairingsE true {clearing := true} mHalfOpen) ≠
      okPaired (computePairingsE true {clearing := false} mHalfOpen) ∧
    okPaired (computePairingsE false {clearing := true} mBadDims) ≠
      okPaired (computePairingsE false {clearing := false} mBadDims) := by
  decide

/-- C4 (amended): for every input matrix whose dimension annotations are
consistent with the entries and which satisfies the boundary property
`D ∘ D = 0`, `compute_pairings` with `clearing = true` emits the same
diagram as with `clearing = false` (with either anti-transpose setting).
-/
theorem claim_C4 (b : Bool) (input : List AnnCol)
    (hdim : DimsConsistent (dimsOf input) (colsOf input))
    (hdd : BoundarySq (colsOf input)) :
    computePairingsE b {clearing := true} input =
      computePairingsE b {clearing := false} input := by
  unfold computePairingsE
  by_cases hvalid : input.all (fun c => validCol input.length c.2)
  case neg =>
    rw [if_neg hvalid, if_neg hvalid]
  case pos =>
    rw [if_pos hvalid, if_pos hvalid]
    have hlen : (dimsOf input).length = (colsOf input).length := by
      rw [dimsOf_length, colsOf_length]
    cases b with
    | false =>
      simp only [reducePhase, Bool.false_eq_true, if_false, if_true]
      rw [clearing_eq_serial hlen hdim hdd]
    | true =>
      simp only [reducePhase, Bool.false_eq_true, if_false, if_true]
      have hlenAT : (antiTDims (dimsOf input)).length =
          (antiT (colsOf input)).length := by
        rw [antiTDims_length, antiT_length, hlen]
      rw [clearing_eq_serial hlenAT (dimsConsistent_antiT hlen hdim)
        (boundarySq_antiT hdim hdd)]

theorem claim_C4_witness :
    DimsConsistent (dimsOf m2simplex) (colsOf m2simplex) ∧
    BoundarySq (colsOf m2simplex) ∧
    computePairingsE true {clearing := true} m2simplex =
      computePairingsE true {clearing := false} m2simplex :=
  ⟨by unfold DimsConsistent; decide, BoundarySq_of_sdSum (by decide),
    claim_C4 true m2simplex (by unfold DimsConsistent; decide)
      (BoundarySq_of_sdSum (by decide))⟩

/-- C7: the diagram emitted from any terminal reduced matrix `R` obeys the
pairing law: `paired = {(pivot(R[j]), j) : R[j] ≠ ∅}`, `unpaired` is
`[0,n)` minus all indices occurring in a pair, and `j` is unpaired exactly
when `R[j]` is empty and no column pivots on row `j`. -/
theorem claim_C7 (R : List Col) :
    (∀ i j, (i, j) ∈ (diagramOf R).paired ↔
      j < R.length ∧ pivot (R.getD j ∅) = some i) ∧
    (diagramOf R).unpaired = Finset.range R.length \
      (((diagramOf R).paired.image Prod.fst) ∪
        ((diagramOf R).paired.image Prod.snd)) ∧
    (∀ j, j ∈ (diagramOf R).unpaired ↔
      j < R.length ∧ R.getD j ∅ = ∅ ∧
        ∀ k < R.length, pivot (R.getD k ∅) ≠ some j) :=
  ⟨fun _ _ => mem_pairedOf, rfl, fun _ => mem_unpairedOf⟩

/-! ## Anti-transpose duality: rank of lower-left blocks -/

theorem colAt_of_ge {D : List Col} {m : ℕ} (h : D.length ≤ m) :
    colAt D m = ∅ := by
  unfold colAt
  exact List.getD_eq_default _ _ h

theorem psiCol_apply_eq {n i : ℕ} (c : Col) (r : Fin n) :
    psiCol n i c r = if i ≤ (r : ℕ) then phi c (r : ℕ) else 0 := by
  unfold psiCol phi
  by_cases h1 : i ≤ (r : ℕ) <;> by_cases h2 : (r : ℕ) ∈ c <;>
    simp [h1, h2]

theorem psiCol_of_sum {n i : ℕ} {u : Col} {S : Finset ℕ} {f : ℕ → Col}
    (h : phi u = ∑ m in S, phi (f m)) :
    psiCol n i u = ∑ m in S, psiCol n i (f m) := by
  funext r
  rw [Finset.sum_apply, psiCol_apply_eq]
  by_cases hr : i ≤ (r : ℕ)
  · rw [if_pos hr, h, Finset.sum_apply]
    apply Finset.sum_congr rfl
    intro m _
    rw [psiCol_apply_eq, if_pos hr]
  · rw [if_neg hr]
    symm
    apply Finset.sum_eq_zero
    intro m _
    rw [psiCol_apply_eq, if_neg hr]

theorem psiCol_eq_zero_of_pivot_le {n i : ℕ} {c : Col}
    (h : pivotNat c ≤ i) : psiCol n i c = 0 := by
  funext r
  unfold psiCol
  rw [if_neg]
  · rfl
  · rintro ⟨hir, hmem⟩
    cases hp : pivot c with
    | none => exact absurd hmem (by rw [pivot_eq_none_iff.mp hp]; simp)
    | some p =>
      have := le_of_mem_pivot hp hmem
      rw [pivotNat_of_some hp] at h
      omega

theorem psiCol_pivot_one {n i : ℕ} {c : Col} {p : ℕ}
    (hp : pivot c = some p) (hip : i ≤ p) (hpn : p < n) :
    psiCol n i c ⟨p, hpn⟩ = 1 := by
  unfold psiCol
  rw [if_pos ⟨hip, pivot_mem hp⟩]

/-- Entry bound for the serial reduction: reduced columns stay within the
row space of the input. -/
theorem reduceMatrix_entries_bound {D : List Col}
    (hD : ∀ j, j < D.length → colAt D j ⊆ Finset.range D.length) :
    ∀ c, c < D.length →
      colAt (reduceMatrix D) c ⊆ Finset.range D.length := by
  obtain ⟨V, htri, hdv, _⟩ := serial_reduction_facts D
  intro c hc x hx
  have h1 : phi (colAt (reduceMatrix D) c) x = 1 := phi_eq_one_iff.mpr hx
  rw [hdv c hc] at h1
  rw [Finset.sum_apply] at h1
  by_contra hxn
  have hzero : ∀ m ∈ V c, phi (colAt D m) x = 0 := by
    intro m _
    rw [phi_eq_zero_iff]
    intro hcon
    rcases Nat.lt_or_ge m D.length with h | h
    · exact hxn (hD m h hcon)
    · rw [colAt_of_ge h] at hcon
      simp at hcon
  rw [Finset.sum_eq_zero hzero] at h1
  exact absurd h1 (by decide)

/-- The columns of the block matrix. -/
theorem blockM_transpose_apply {D : List Col} {i j : ℕ}
    (c : Fin D.length) :
    (blockM D i j).transpose c =
      if (c : ℕ) < j then psiCol D.length i (colAt D (c : ℕ)) else 0 := by
  funext r
  unfold blockM psiCol Matrix.transpose
  by_cases hc : (c : ℕ) < j
  · rw [if_pos hc]
    by_cases h1 : i ≤ (r : ℕ) ∧ (r : ℕ) ∈ colAt D (c : ℕ)
    · simp [h1, hc]
    · simp only [Matrix.of_apply]
      rw [if_neg, if_neg h1]
      intro hcon
      exact h1 ⟨hcon.1, hcon.2.2⟩
  · rw [if_neg hc]
    simp only [Matrix.of_apply, Pi.zero_apply]
    rw [if_neg]
    intro hcon
    exact hc hcon.2.1


/-- The columns of the lower-left block span the same space as the
truncated reduced columns with pivot past row `i`. -/
theorem pivFam_spans {D : List Col} {i j : ℕ}
    (hD : ∀ m, m < D.length → colAt D m ⊆ Finset.range D.length)
    (hj : j ≤ D.length) :
    Submodule.span (ZMod 2) (Set.range (blockM D i j).transpose) =
      Submodule.span (ZMod 2) (Set.range (pivFam D i j)) := by
  obtain ⟨V, htri, hdv, hred⟩ := serial_reduction_facts D
  apply le_antisymm
  · rw [Submodule.span_le]
    rintro _ ⟨c, rfl⟩
    rw [blockM_transpose_apply]
    by_cases hc : (c : ℕ) < j
    · rw [if_pos hc]
      have hbound : ∀ x ∈ ({(c : ℕ)} : Col), x < D.length := by
        intro x hx
        rw [Finset.mem_singleton] at hx
        rw [hx]
        exact c.isLt
      obtain ⟨S, hSbound, -, hSsum⟩ :=
        span_repr htri (pivotNat {(c : ℕ)}) {(c : ℕ)} le_rfl hbound
      have hpivc : pivot ({(c : ℕ)} : Col) = some (c : ℕ) :=
        pivot_of_top (Finset.mem_singleton_self _)
          (fun x hx => by
            rw [Finset.mem_singleton] at hx
            rw [Finset.mem_range, hx]
            omega)
      have h1 := hSsum (Dapp D) (Dapp_symmDiff D)
      rw [Dapp_singleton] at h1
      have hphi : phi (colAt D (c : ℕ)) =
          ∑ m in S, phi (colAt (reduceMatrix D) m) := by
        rw [h1]
        apply Finset.sum_congr rfl
        intro m hm
        exact (hdv m (hSbound m hm).2).symm
      rw [psiCol_of_sum hphi]
      apply Submodule.sum_mem
      intro m hm
      obtain ⟨hmc, hmn⟩ := hSbound m hm
      rw [pivotNat_of_some hpivc] at hmc
      by_cases hmT : m ∈ pivSet D i j
      · exact Submodule.subset_span ⟨⟨m, hmT⟩, rfl⟩
      · simp only [pivSet, Finset.mem_filter, Finset.mem_range, not_and,
          not_lt] at hmT
        have hple : pivotNat (colAt (reduceMatrix D) m) ≤ i := by
          have hcj : (c : ℕ) < j := hc
          exact hmT (by omega)
        rw [psiCol_eq_zero_of_pivot_le hple]
        exact Submodule.zero_mem _
    · rw [if_neg hc]
      exact Submodule.zero_mem _
  · rw [Submodule.span_le]
    rintro _ ⟨⟨k, hk⟩, rfl⟩
    have hk' := hk
    simp only [pivSet, Finset.mem_filter, Finset.mem_range] at hk'
    have hkn : k < D.length := by omega
    show psiCol D.length i (colAt (reduceMatrix D) k) ∈
      Submodule.span (ZMod 2) (Set.range (blockM D i j).transpose)
    rw [psiCol_of_sum (hdv k hkn)]
    apply Submodule.sum_mem
    intro m hm
    obtain ⟨hVsub, -⟩ := htri k hkn
    have hmk : m < k + 1 := Finset.mem_range.mp (hVsub hm)
    have hmn : m < D.length := by omega
    have hcol : psiCol D.length i (colAt D m) =
        (blockM D i j).transpose ⟨m, hmn⟩ := by
      rw [blockM_transpose_apply]
      rw [if_pos (show m < j by omega)]
    rw [hcol]
    exact Submodule.subset_span ⟨⟨m, hmn⟩, rfl⟩

/-- Every index of `pivSet` carries a genuine pivot past row `i` and in
range. -/
theorem pivSet_pivot {D : List Col} {i j : ℕ}
    (hD : ∀ m, m < D.length → colAt D m ⊆ Finset.range D.length)
    (hj : j ≤ D.length) (k : ℕ) (hk : k ∈ pivSet D i j) :
    ∃ p, pivot (colAt (reduceMatrix D) k) = some p ∧ i ≤ p ∧ p < D.length := by
  simp only [pivSet, Finset.mem_filter, Finset.mem_range] at hk
  obtain ⟨hkj, hki⟩ := hk
  cases hp : pivot (colAt (reduceMatrix D) k) with
  | none =>
    rw [pivotNat, hp] at hki
    simp at hki
  | some p =>
    refine ⟨p, rfl, ?_, ?_⟩
    · rw [pivotNat_of_some hp] at hki
      omega
    · exact Finset.mem_range.mp
        (reduceMatrix_entries_bound hD k (by omega) (pivot_mem hp))

/-- The truncated reduced columns with pivot past row `i` are linearly
independent over F2. -/
theorem pivFam_indep {D : List Col} {i j : ℕ}
    (hD : ∀ m, m < D.length → colAt D m ⊆ Finset.range D.length)
    (hj : j ≤ D.length) :
    LinearIndependent (ZMod 2) (pivFam D i j) := by
  obtain ⟨V, htri, hdv, hred⟩ := serial_reduction_facts D
  rw [Fintype.linearIndependent_iff]
  intro g hg k₀
  by_contra hk₀
  set U := Finset.univ.filter
    (fun k : {x // x ∈ pivSet D i j} => g k ≠ 0) with hU
  have hUne : U.Nonempty := by
    refine ⟨k₀, ?_⟩
    rw [hU, Finset.mem_filter]
    exact ⟨Finset.mem_univ _, hk₀⟩
  obtain ⟨ms, hmsU, hmax⟩ := U.exists_max_image
    (fun k => pivotNat (colAt (reduceMatrix D) (k : ℕ))) hUne
  obtain ⟨p, hp, hip, hpn⟩ := pivSet_pivot hD hj (ms : ℕ) ms.2
  have heval := congrFun hg ⟨p, hpn⟩
  simp only [Finset.sum_apply, Pi.zero_apply] at heval
  have hterm : ∀ k : {x // x ∈ pivSet D i j}, k ∈ Finset.univ → k ≠ ms →
      (g k • pivFam D i j k) ⟨p, hpn⟩ = 0 := by
    intro k _ hkms
    by_cases hgk : g k = 0
    · rw [hgk, zero_smul]
      rfl
    · have hkU : k ∈ U := by
        rw [hU, Finset.mem_filter]
        exact ⟨Finset.mem_univ _, hgk⟩
      have hle := hmax k hkU
      obtain ⟨q, hq, hiq, hqn⟩ := pivSet_pivot hD hj (k : ℕ) k.2
      have hzero : pivFam D i j k ⟨p, hpn⟩ = 0 := by
        show psiCol D.length i (colAt (reduceMatrix D) (k : ℕ)) ⟨p, hpn⟩ = 0
        unfold psiCol
        rw [if_neg]
        rintro ⟨-, hpk⟩
        have h1 : p ≤ q := le_of_mem_pivot hq hpk
        rw [pivotNat_of_some hq, pivotNat_of_some hp] at hle
        have h2 : q = p := by omega
        have hkin := k.2
        have hmin := ms.2
        simp only [pivSet, Finset.mem_filter, Finset.mem_range] at hkin hmin
        have hne₁ : colAt (reduceMatrix D) (k : ℕ) ≠ ∅ := fun habs =>
          absurd ((pivot_eq_none_iff.mpr habs).symm.trans hq) (by simp)
        have hne₂ : colAt (reduceMatrix D) (ms : ℕ) ≠ ∅ := fun habs =>
          absurd ((pivot_eq_none_iff.mpr habs).symm.trans hp) (by simp)
        have h3 : (k : ℕ) = (ms : ℕ) := by
          apply hred (k : ℕ) (ms : ℕ) (by omega) (by omega) hne₁ hne₂
          rw [hq, hp, h2]
        exact hkms (Subtype.ext h3)
      rw [Pi.smul_apply, hzero, smul_zero]
  rw [Finset.sum_eq_single ms hterm
    (fun h => absurd (Finset.mem_univ ms) h)] at heval
  have hone : pivFam D i j ms ⟨p, hpn⟩ = 1 := by
    show psiCol D.length i (colAt (reduceMatrix D) (ms : ℕ)) ⟨p, hpn⟩ = 1
    exact psiCol_pivot_one hp hip hpn
  rw [Pi.smul_apply, hone, smul_eq_mul, mul_one] at heval
  have hms := hmsU
  rw [hU, Finset.mem_filter] at hms
  exact hms.2 heval

/-- The rank of the lower-left block (rows `≥ i`, columns `< j`) of the
input matrix counts the reduced columns below `j` whose pivot reaches past
row `i`. -/
theorem rank_blockM {D : List Col} {i j : ℕ}
    (hD : ∀ m, m < D.length → colAt D m ⊆ Finset.range D.length)
    (hj : j ≤ D.length) :
    (blockM D i j).rank = (pivSet D i j).card := by
  rw [Matrix.rank_eq_finrank_span_cols, pivFam_spans hD hj,
    finrank_span_eq_card (pivFam_indep hD hj), Fintype.card_coe]


/-! ## The pivot-count calculus -/

theorem getD_colAt (L : List Col) (j : ℕ) : L.getD j ∅ = colAt L j := rfl

theorem pivSet_subset_range (D : List Col) (i j : ℕ) :
    pivSet D i j ⊆ Finset.range j :=
  Finset.filter_subset _ _

theorem pivSet_succ_j (D : List Col) (i j : ℕ) :
    pivSet D i (j + 1) =
      if i < pivotNat (colAt (reduceMatrix D) j)
      then insert j (pivSet D i j) else pivSet D i j := by
  unfold pivSet
  rw [Finset.range_succ, Finset.filter_insert]

theorem card_pivSet_succ_j (D : List Col) (i j : ℕ) :
    (pivSet D i (j + 1)).card =
      (pivSet D i j).card +
        (if i < pivotNat (colAt (reduceMatrix D) j) then 1 else 0) := by
  rw [pivSet_succ_j]
  by_cases h : i < pivotNat (colAt (reduceMatrix D) j)
  · rw [if_pos h, if_pos h, Finset.card_insert_of_not_mem]
    intro hmem
    exact absurd (Finset.mem_range.mp (pivSet_subset_range D i j hmem))
      (lt_irrefl j)
  · rw [if_neg h, if_neg h]
    omega

theorem pivSet_subset_succ_i (D : List Col) (i j : ℕ) :
    pivSet D (i + 1) j ⊆ pivSet D i j := by
  intro x hx
  simp only [pivSet, Finset.mem_filter, Finset.mem_range] at hx ⊢
  exact ⟨hx.1, by omega⟩

theorem card_pivSet_succ_i_le {D : List Col} {i j : ℕ} (hj : j ≤ D.length) :
    (pivSet D i j).card ≤ (pivSet D (i + 1) j).card + 1 := by
  obtain ⟨V, htri, hdv, hred⟩ := serial_reduction_facts D
  have hsub := pivSet_subset_succ_i D i j
  have hdiff : (pivSet D i j \ pivSet D (i + 1) j).card ≤ 1 := by
    rw [Finset.card_le_one]
    intro x hx y hy
    simp only [Finset.mem_sdiff, pivSet, Finset.mem_filter, Finset.mem_range,
      not_and, not_lt] at hx hy
    obtain ⟨⟨hxj, hxi⟩, hxle⟩ := hx
    obtain ⟨⟨hyj, hyi⟩, hyle⟩ := hy
    have hx2 := hxle hxj
    have hy2 := hyle hyj
    have hpx : pivot (colAt (reduceMatrix D) x) = some i := by
      cases hp : pivot (colAt (reduceMatrix D) x) with
      | none => rw [pivotNat, hp] at hxi; simp at hxi
      | some m =>
        rw [pivotNat_of_some hp] at hxi hx2
        have hmi : m = i := by omega
        rw [hmi]
    have hpy : pivot (colAt (reduceMatrix D) y) = some i := by
      cases hp : pivot (colAt (reduceMatrix D) y) with
      | none => rw [pivotNat, hp] at hyi; simp at hyi
      | some m =>
        rw [pivotNat_of_some hp] at hyi hy2
        have hmi : m = i := by omega
        rw [hmi]
    have hne₁ : colAt (reduceMatrix D) x ≠ ∅ := fun habs =>
      absurd ((pivot_eq_none_iff.mpr habs).symm.trans hpx) (by simp)
    have hne₂ : colAt (reduceMatrix D) y ≠ ∅ := fun habs =>
      absurd ((pivot_eq_none_iff.mpr habs).symm.trans hpy) (by simp)
    exact hred x y (by omega) (by omega) hne₁ hne₂ (hpx.trans hpy.symm)
  have hcard := Finset.card_sdiff_add_card_eq_card hsub
  have hle := Finset.card_le_card hsub
  omega

theorem pivot_iff_counts {D : List Col} {a b : ℕ} :
    pivot (colAt (reduceMatrix D) b) = some a ↔
      (pivSet D a (b + 1)).card = (pivSet D a b).card + 1 ∧
      (pivSet D (a + 1) (b + 1)).card = (pivSet D (a + 1) b).card := by
  rw [card_pivSet_succ_j D a b, card_pivSet_succ_j D (a + 1) b]
  constructor
  · intro hp
    constructor
    · rw [if_pos (show a < pivotNat (colAt (reduceMatrix D) b) from by
        rw [pivotNat_of_some hp]; omega)]
    · rw [if_neg (show ¬ a + 1 < pivotNat (colAt (reduceMatrix D) b) from by
        rw [pivotNat_of_some hp]; omega)]
      omega
  · intro ⟨h1, h2⟩
    by_cases hlt : a < pivotNat (colAt (reduceMatrix D) b)
    · by_cases hlt2 : a + 1 < pivotNat (colAt (reduceMatrix D) b)
      · rw [if_pos hlt2] at h2
        omega
      · have hP : pivotNat (colAt (reduceMatrix D) b) = a + 1 := by omega
        cases hp : pivot (colAt (reduceMatrix D) b) with
        | none => rw [pivotNat, hp] at hP; simp at hP
        | some m =>
          rw [pivotNat_of_some hp] at hP
          have hma : m = a := by omega
          rw [hma]
    · rw [if_neg hlt] at h1
      omega


/-! ## Transfer of block ranks along the anti-transpose -/

theorem blockM_antiT_eq {D : List Col} {i' j' : ℕ}
    (hi' : i' ≤ D.length) (hj' : j' ≤ D.length) :
    blockM (antiT D) i' j' =
      ((blockM D (D.length - j') (D.length - i')).transpose).submatrix
        ((finCongr (antiT_length D)).trans (revFin D.length))
        ((finCongr (antiT_length D)).trans (revFin D.length)) := by
  ext r c
  have hr : (r : ℕ) < D.length := by
    have h1 := r.isLt
    have h2 := antiT_length D
    omega
  have hc : (c : ℕ) < D.length := by
    have h1 := c.isLt
    have h2 := antiT_length D
    omega
  rw [Matrix.submatrix_apply, Matrix.transpose_apply]
  have hfc : ((((finCongr (antiT_length D)).trans (revFin D.length)) c :
      Fin D.length) : ℕ) = D.length - 1 - (c : ℕ) := rfl
  have hfr : ((((finCongr (antiT_length D)).trans (revFin D.length)) r :
      Fin D.length) : ℕ) = D.length - 1 - (r : ℕ) := rfl
  simp only [blockM]
  rw [hfc, hfr]
  refine if_congr ?_ rfl rfl
  rw [colAt_antiT hc, mem_antiTCol]
  constructor
  · rintro ⟨h1, h2, -, h4⟩
    exact ⟨by omega, by omega, h4⟩
  · rintro ⟨h1, h2, h3⟩
    exact ⟨by omega, by omega, hr, h3⟩

theorem rank_blockM_antiT {D : List Col} {i' j' : ℕ}
    (hi' : i' ≤ D.length) (hj' : j' ≤ D.length) :
    (blockM (antiT D) i' j').rank =
      (blockM D (D.length - j') (D.length - i')).rank := by
  rw [blockM_antiT_eq hi' hj', Matrix.rank_submatrix, Matrix.rank_transpose]

/-- The anti-transpose always has entries in range. -/
theorem antiT_entries (D : List Col) :
    ∀ m, m < (antiT D).length →
      colAt (antiT D) m ⊆ Finset.range (antiT D).length := by
  intro m hm x hx
  have hm' : m < D.length := by
    have := antiT_length D
    omega
  rw [colAt_antiT hm'] at hx
  rw [mem_antiTCol] at hx
  rw [Finset.mem_range, antiT_length]
  exact hx.1

/-- Pivot counts transfer along the anti-transpose: the count of the
anti-transposed reduction at `(i', j')` is the count of the original
reduction at the reflected corner. -/
theorem card_pivSet_antiT {D : List Col}
    (hD : ∀ m, m < D.length → colAt D m ⊆ Finset.range D.length)
    {i' j' : ℕ} (hi' : i' ≤ D.length) (hj' : j' ≤ D.length) :
    (pivSet (antiT D) i' j').card =
      (pivSet D (D.length - j') (D.length - i')).card := by
  have h1 : (blockM (antiT D) i' j').rank = (pivSet (antiT D) i' j').card :=
    rank_blockM (antiT_entries D) (by rw [antiT_length]; exact hj')
  have h2 := rank_blockM_antiT hi' hj'
  have h3 : (blockM D (D.length - j') (D.length - i')).rank =
      (pivSet D (D.length - j') (D.length - i')).card :=
    rank_blockM hD (Nat.sub_le _ _)
  rw [← h1, h2, h3]


/-! ## The anti-transpose duality of pairings -/

/-- Both indices of an emitted pair are in range (the first by the entry
bound on the reduced matrix). -/
theorem paired_bounds {D : List Col}
    (hD : ∀ m, m < D.length → colAt D m ⊆ Finset.range D.length)
    {a b : ℕ} (h : (a, b) ∈ pairedOf (reduceMatrix D)) :
    a < D.length ∧ b < D.length := by
  rw [mem_pairedOf] at h
  obtain ⟨hb, hp⟩ := h
  rw [reduceMatrix_length] at hb
  refine ⟨?_, hb⟩
  exact Finset.mem_range.mp
    (reduceMatrix_entries_bound hD b hb (pivot_mem hp))

theorem paired_antiT_iff {D : List Col}
    (hD : ∀ m, m < D.length → colAt D m ⊆ Finset.range D.length)
    {a b : ℕ} (ha : a < D.length) (hb : b < D.length) :
    ((a, b) ∈ pairedOf (reduceMatrix D) ↔
      (D.length - 1 - b, D.length - 1 - a) ∈
        pairedOf (reduceMatrix (antiT D))) := by
  rw [mem_pairedOf, mem_pairedOf]
  have hlen1 : (reduceMatrix D).length = D.length := reduceMatrix_length D
  have hlen2 : (reduceMatrix (antiT D)).length = D.length := by
    rw [reduceMatrix_length, antiT_length]
  rw [hlen1, hlen2]
  simp only [getD_colAt]
  have hcore : pivot (colAt (reduceMatrix D) b) = some a ↔
      pivot (colAt (reduceMatrix (antiT D)) (D.length - 1 - a)) =
        some (D.length - 1 - b) := by
    rw [pivot_iff_counts, pivot_iff_counts]
    have e1 : (pivSet (antiT D) (D.length - 1 - b)
        (D.length - 1 - a + 1)).card = (pivSet D a (b + 1)).card := by
      have ha1 : D.length - (D.length - 1 - a + 1) = a := by omega
      have hb1 : D.length - (D.length - 1 - b) = b + 1 := by omega
      rw [card_pivSet_antiT hD (by omega) (by omega), ha1, hb1]
    have e2 : (pivSet (antiT D) (D.length - 1 - b)
        (D.length - 1 - a)).card = (pivSet D (a + 1) (b + 1)).card := by
      have ha1 : D.length - (D.length - 1 - a) = a + 1 := by omega
      have hb1 : D.length - (D.length - 1 - b) = b + 1 := by omega
      rw [card_pivSet_antiT hD (by omega) (by omega), ha1, hb1]
    have e3 : (pivSet (antiT D) (D.length - 1 - b + 1)
        (D.length - 1 - a + 1)).card = (pivSet D a b).card := by
      have ha1 : D.length - (D.length - 1 - a + 1) = a := by omega
      have hb1 : D.length - (D.length - 1 - b + 1) = b := by omega
      rw [card_pivSet_antiT hD (by omega) (by omega), ha1, hb1]
    have e4 : (pivSet (antiT D) (D.length - 1 - b + 1)
        (D.length - 1 - a)).card = (pivSet D (a + 1) b).card := by
      have ha1 : D.length - (D.length - 1 - a) = a + 1 := by omega
      have hb1 : D.length - (D.length - 1 - b + 1) = b := by omega
      rw [card_pivSet_antiT hD (by omega) (by omega), ha1, hb1]
    rw [e1, e2, e3, e4]
    have g1 : (pivSet D a b).card ≤ (pivSet D a (b + 1)).card ∧
        (pivSet D a (b + 1)).card ≤ (pivSet D a b).card + 1 := by
      rw [card_pivSet_succ_j]
      by_cases h : a < pivotNat (colAt (reduceMatrix D) b)
      · rw [if_pos h]
        omega
      · rw [if_neg h]
        omega
    have g2 : (pivSet D (a + 1) b).card ≤ (pivSet D (a + 1) (b + 1)).card ∧
        (pivSet D (a + 1) (b + 1)).card ≤ (pivSet D (a + 1) b).card + 1 := by
      rw [card_pivSet_succ_j]
      by_cases h : a + 1 < pivotNat (colAt (reduceMatrix D) b)
      · rw [if_pos h]
        omega
      · rw [if_neg h]
        omega
    have f3 := card_pivSet_succ_i_le (D := D) (i := a) (j := b)
      (le_of_lt hb)
    have f4 := card_pivSet_succ_i_le (D := D) (i := a) (j := b + 1)
      (by omega)
    have f5 := Finset.card_le_card (pivSet_subset_succ_i D a b)
    have f6 := Finset.card_le_card (pivSet_subset_succ_i D a (b + 1))
    constructor
    · rintro ⟨h1, h2⟩
      constructor <;> omega
    · rintro ⟨h1, h2⟩
      constructor <;> omega
  constructor
  · rintro ⟨-, hp⟩
    exact ⟨by omega, hcore.mp hp⟩
  · rintro ⟨-, hp⟩
    exact ⟨hb, hcore.mpr hp⟩


/-- Unpairedness of an index, phrased through the paired set alone. -/
theorem unpaired_iff_no_pairs {R : List Col} {j : ℕ} :
    j ∈ unpairedOf R ↔
      j < R.length ∧ (∀ a, (a, j) ∉ pairedOf R) ∧
        (∀ k, (j, k) ∉ pairedOf R) := by
  rw [mem_unpairedOf]
  constructor
  · rintro ⟨hj, hempty, hnopiv⟩
    refine ⟨hj, ?_, ?_⟩
    · intro a hpa
      rw [mem_pairedOf, hempty] at hpa
      exact absurd hpa.2 (by rw [pivot_eq_none_iff.mpr rfl]; simp)
    · intro k hpk
      rw [mem_pairedOf] at hpk
      exact hnopiv k hpk.1 hpk.2
  · rintro ⟨hj, hfst, hsnd⟩
    refine ⟨hj, ?_, ?_⟩
    · by_contra hne
      obtain ⟨i, hi⟩ : ∃ i, pivot (R.getD j ∅) = some i := by
        cases hp : pivot (R.getD j ∅) with
        | none => exact absurd (pivot_eq_none_iff.mp hp) hne
        | some i => exact ⟨i, rfl⟩
      exact hfst i (mem_pairedOf.mpr ⟨hj, hi⟩)
    · intro k hk hpk
      exact hsnd k (mem_pairedOf.mpr ⟨hk, hpk⟩)

theorem unpaired_antiT_iff {D : List Col}
    (hD : ∀ m, m < D.length → colAt D m ⊆ Finset.range D.length)
    {j : ℕ} (hj : j < D.length) :
    (j ∈ unpairedOf (reduceMatrix D) ↔
      D.length - 1 - j ∈ unpairedOf (reduceMatrix (antiT D))) := by
  have hlen2 : (reduceMatrix (antiT D)).length = D.length := by
    rw [reduceMatrix_length, antiT_length]
  rw [unpaired_iff_no_pairs, unpaired_iff_no_pairs, reduceMatrix_length,
    hlen2]
  constructor
  · rintro ⟨-, h1, h2⟩
    refine ⟨by omega, ?_, ?_⟩
    · intro a' hmem
      obtain ⟨ha', -⟩ := paired_bounds (antiT_entries D) hmem
      have ha'n : a' < D.length := by
        have := antiT_length D
        omega
      refine h2 (D.length - 1 - a')
        ((paired_antiT_iff hD hj (by omega)).mpr ?_)
      rw [show D.length - 1 - (D.length - 1 - a') = a' from by omega]
      exact hmem
    · intro k' hmem
      obtain ⟨-, hk'⟩ := paired_bounds (antiT_entries D) hmem
      have hk'n : k' < D.length := by
        have := antiT_length D
        omega
      refine h1 (D.length - 1 - k')
        ((paired_antiT_iff hD (by omega) hj).mpr ?_)
      rw [show D.length - 1 - (D.length - 1 - k') = k' from by omega]
      exact hmem
  · rintro ⟨-, h1, h2⟩
    refine ⟨hj, ?_, ?_⟩
    · intro a hmem
      obtain ⟨han, -⟩ := paired_bounds hD hmem
      exact h2 (D.length - 1 - a) ((paired_antiT_iff hD han hj).mp hmem)
    · intro k hmem
      obtain ⟨-, hkn⟩ := paired_bounds hD hmem
      exact h1 (D.length - 1 - k) ((paired_antiT_iff hD hj hkn).mp hmem)

/-- C6: anti-transpose duality — for a square boundary matrix `D` of size
`n` (entries in `[0, n)`), `(a, b)` is paired in the reduction of `D`
exactly when `(n-1-b, n-1-a)` is paired in the reduction of `D^⊥`, and
`j` is unpaired in `D` exactly when `n-1-j` is unpaired in `D^⊥`. -/
theorem claim_C6 (D : List Col)
    (hD : ∀ m, m < D.length → colAt D m ⊆ Finset.range D.length) :
    (∀ a b, a < D.length → b < D.length →
      ((a, b) ∈ (serialDiagram D).paired ↔
        (D.length - 1 - b, D.length - 1 - a) ∈
          (serialDiagram (antiT D)).paired)) ∧
    (∀ j, j < D.length →
      (j ∈ (serialDiagram D).unpaired ↔
        D.length - 1 - j ∈ (serialDiagram (antiT D)).unpaired)) := by
  constructor
  · intro a b ha hb
    exact paired_antiT_iff hD ha hb
  · intro j hj
    exact unpaired_antiT_iff hD hj

theorem claim_C6_witness :
    (∀ m, m < ([∅, {0}] : List Col).length →
      colAt [∅, {0}] m ⊆ Finset.range ([∅, {0}] : List Col).length) ∧
    ((0, 1) ∈ (serialDiagram [∅, {0}]).paired ↔
      (0, 1) ∈ (serialDiagram (antiT [∅, {0}])).paired) :=
  ⟨by decide, (claim_C6 [∅, {0}] (by decide)).1 0 1 (by decide) (by decide)⟩


/-! ## Algorithm agreement: serial, lock-free and anti-transpose -/

/-- A validated input has all entries in `[0, n)`. -/
theorem colsOf_entries_of_valid {input : List AnnCol}
    (hvalid : input.all (fun c => validCol input.length c.2) = true) :
    ∀ m, m < (colsOf input).length →
      colAt (colsOf input) m ⊆ Finset.range (colsOf input).length := by
  intro m hm x hx
  rw [colsOf_length] at hm
  have hcol : colAt (colsOf input) m = (input[m]).2.toFinset := by
    unfold colAt colsOf
    rw [List.getD_eq_getElem _ _ (by simpa using hm)]
    simp
  rw [hcol, List.mem_toFinset] at hx
  rw [List.all_eq_true] at hvalid
  have hv := hvalid _ (input.getElem_mem hm)
  unfold validCol at hv
  rw [Bool.and_eq_true] at hv
  have hall := hv.2
  rw [List.all_eq_true] at hall
  rw [Finset.mem_range, colsOf_length]
  exact of_decide_eq_true (hall x hx)

/-- Re-mapping the serial diagram of the anti-transpose returns the serial
diagram of the original matrix. -/
theorem remap_serial_antiT {D : List Col}
    (hD : ∀ m, m < D.length → colAt D m ⊆ Finset.range D.length) :
    remapDiagram D.length (serialDiagram (antiT D)) = serialDiagram D := by
  unfold remapDiagram serialDiagram diagramOf
  congr 1
  · apply Finset.ext
    intro ⟨x, y⟩
    rw [Finset.mem_image]
    constructor
    · rintro ⟨⟨a', b'⟩, hmem, heq⟩
      obtain ⟨ha', hb'⟩ := paired_bounds (antiT_entries D) hmem
      have hlen := antiT_length D
      have ha'n : a' < D.length := by omega
      have hb'n : b' < D.length := by omega
      rw [Prod.mk.injEq] at heq
      obtain ⟨hx, hy⟩ := heq
      have h := (paired_antiT_iff hD
        (show D.length - 1 - b' < D.length from by omega)
        (show D.length - 1 - a' < D.length from by omega)).mpr
      rw [show D.length - 1 - (D.length - 1 - a') = a' from by omega,
        show D.length - 1 - (D.length - 1 - b') = b' from by omega] at h
      rw [← hx, ← hy]
      exact h hmem
    · intro hmem
      obtain ⟨hxn, hyn⟩ := paired_bounds hD hmem
      refine ⟨(D.length - 1 - y, D.length - 1 - x),
        (paired_antiT_iff hD hxn hyn).mp hmem, ?_⟩
      show (D.length - 1 - (D.length - 1 - x),
        D.length - 1 - (D.length - 1 - y)) = (x, y)
      rw [Prod.mk.injEq]
      exact ⟨by omega, by omega⟩
  · apply Finset.ext
    intro x
    rw [Finset.mem_image]
    constructor
    · rintro ⟨j', hmem, heq⟩
      have hj'n : j' < D.length := by
        have h1 := (mem_unpairedOf.mp hmem).1
        have h2 := reduceMatrix_length (antiT D)
        have h3 := antiT_length D
        omega
      have h := (unpaired_antiT_iff hD
        (show D.length - 1 - j' < D.length from by omega)).mpr
      rw [show D.length - 1 - (D.length - 1 - j') = j' from by omega] at h
      rw [← heq]
      exact h hmem
    · intro hmem
      have hxn : x < D.length := by
        have h1 := (mem_unpairedOf.mp hmem).1
        have h2 := reduceMatrix_length D
        omega
      exact ⟨D.length - 1 - x, (unpaired_antiT_iff hD hxn).mp hmem,
        by omega⟩


/-- C5 (amended): on every validated input, with clearing disabled (the
clearing interaction is the subject of C4), the serial reduction, the
anti-transpose variant and every quiescent lock-free run emit the same
diagram. -/
theorem claim_C5 (input : List AnnCol) (opts : Options) (sched : List ℕ)
    (hclear : opts.clearing = false)
    (hvalid : input.all (fun c => validCol input.length c.2) = true)
    (hq : lfQuiescent (lfRun (colsOf input) sched) = true) :
    computePairingsE true opts input = .ok (serialDiagram (colsOf input)) ∧
    computePairingsE false opts input = .ok (serialDiagram (colsOf input)) ∧
    lfDiagram (lfRun (colsOf input) sched) = serialDiagram (colsOf input) := by
  have hD := colsOf_entries_of_valid hvalid
  refine ⟨?_, ?_, lfRun_diagram _ _ hq⟩
  · unfold computePairingsE
    rw [if_pos hvalid, hclear]
    simp only [reducePhase, Bool.false_eq_true, if_false]
    rw [← colsOf_length input, remap_serial_antiT hD]
    simp
  · unfold computePairingsE
    rw [if_pos hvalid, hclear]
    simp only [reducePhase, Bool.false_eq_true, if_false]

/-- Counterexample to C5 as stated: with the default options (clearing
on), toggling `anti_transpose` changes the diagram on a valid input that
violates `D ∘ D = 0`. -/
theorem claim_C5_counterexample :
    okPaired (computePairingsE true {} mHalfOpen) ≠
      okPaired (computePairingsE false {} mHalfOpen) := by
  decide

theorem claim_C5_witness :
    (({ clearing := false } : Options).clearing = false ∧
      ([(0, []), (1, [0])] : List AnnCol).all
        (fun c => validCol ([(0, []), (1, [0])] : List AnnCol).length c.2)
          = true ∧
      lfQuiescent (lfRun (colsOf [(0, []), (1, [0])]) [1]) = true) ∧
    (computePairingsE true { clearing := false } [(0, []), (1, [0])] =
        .ok (serialDiagram (colsOf [(0, []), (1, [0])])) ∧
      computePairingsE false { clearing := false } [(0, []), (1, [0])] =
        .ok (serialDiagram (colsOf [(0, []), (1, [0])])) ∧
      lfDiagram (lfRun (colsOf [(0, []), (1, [0])]) [1]) =
        serialDiagram (colsOf [(0, []), (1, [0])])) :=
  ⟨⟨rfl, by decide, by decide⟩,
    claim_C5 [(0, []), (1, [0])] { clearing := false } [1] rfl (by decide)
      (by decide)⟩

end LoPhat
